import Mathlib

/-!
Verification of the ABI encoding/decoding engine of the
smart-contract-wrapper repository (vendored ethers `AbiCoder` and its
coders), as a shallow embedding.

Byte buffers are `List Nat` (each entry a byte value `< 256`); 32-byte
words are big-endian.  The `AbiCoder` facade, `StringCoder`,
`NumberCoder`, `AddressCoder` and `FixedBytesCoder` are translated from
the repository sources; the `Writer`/`Reader` buffer primitives and the
`DynamicBytes`/`Array`/`Tuple` coders, whose sources are not part of the
repository snapshot, are modelled from the specification (word-aligned
head/tail layout, cursor-based reader with the inflation guard).
-/

namespace Abi

/-- Error taxonomy of the codec (spec section 7). -/
inductive Err where
  | InvalidType
  | ArgumentCountMismatch
  | ValueOutOfBounds
  | InvalidAddressLength
  | InvalidFixedBytesLength
  | BufferUnderrun
  | InflationGuardTripped
  | InvalidUtf8
  | UnsupportedType
  | InvalidValue
  deriving DecidableEq, Repr

/-- One 32-byte word. -/
def WordSize : Nat := 32

/-- Big-endian bytes of `n`, exactly `len` bytes (the value is taken
modulo `256 ^ len`, mirroring a fixed-width write). -/
def natToBytesBE : Nat → Nat → List Nat
  | 0, _ => []
  | len + 1, n => natToBytesBE len (n / 256) ++ [n % 256]

/-- Big-endian value of a byte list. -/
def bytesToNat (bs : List Nat) : Nat :=
  bs.foldl (fun a b => a * 256 + b) 0

/-- A full 32-byte word holding `n % 2^256`, as written by
`Writer.writeValue`. -/
def word32 (n : Nat) : List Nat := natToBytesBE WordSize n

theorem natToBytesBE_length (len n : Nat) : (natToBytesBE len n).length = len := by
  induction len generalizing n with
  | zero => rfl
  | succ k ih => simp [natToBytesBE, ih]

theorem word32_length (n : Nat) : (word32 n).length = 32 :=
  natToBytesBE_length _ _

theorem bytesToNat_append (bs cs : List Nat) :
    bytesToNat (bs ++ cs) = bytesToNat bs * 256 ^ cs.length + bytesToNat cs := by
  induction cs using List.reverseRecOn with
  | nil => simp [bytesToNat]
  | append_singleton cs c ih =>
    simp only [bytesToNat, List.foldl_append, List.foldl_cons, List.foldl_nil] at *
    simp [ih, List.length_append, Nat.pow_succ]
    ring

theorem bytesToNat_natToBytesBE (len n : Nat) :
    bytesToNat (natToBytesBE len n) = n % 256 ^ len := by
  induction len generalizing n with
  | zero => simp [natToBytesBE, bytesToNat, Nat.mod_one]
  | succ k ih =>
    rw [natToBytesBE, bytesToNat_append, ih]
    simp only [bytesToNat, List.foldl_cons, List.foldl_nil, List.length_cons,
      List.length_nil, Nat.zero_add, Nat.zero_mul, pow_one]
    rw [pow_succ, Nat.mul_comm (256 ^ k) 256, Nat.mod_mul]
    ring

/-- Type descriptors (spec section 3): the parsed, immutable
representation of an ABI type.  Number and fixed-bytes sizes are in
bytes, as in `NumberCoder`/`FixedBytesCoder`. -/
inductive AbiType where
  | uintT (size : Nat)
  | intT (size : Nat)
  | addressT
  | boolT
  | fixedBytesT (size : Nat)
  | bytesT
  | stringT
  | arrayT (len : Option Nat) (elem : AbiType)
  | tupleT (comps : List AbiType)
  deriving BEq, Repr

/-- Decoded / to-be-encoded values.  Addresses are the 20-byte quantity
(`< 2^160`); byte strings are byte lists; strings are character lists. -/
inductive AbiValue where
  | int (v : Int)
  | addr (a : Nat)
  | boolV (b : Bool)
  | bytes (bs : List Nat)
  | str (s : List Char)
  | list (vs : List AbiValue)
  | tup (vs : List AbiValue)
  deriving BEq, Repr

mutual

/-- The `dynamic` flag of the coder for a descriptor: true iff the
encoded byte length depends on the value (spec sections 3, 4.5). -/
def AbiType.isDynamic : AbiType → Bool
  | .uintT _ | .intT _ | .addressT | .boolT | .fixedBytesT _ => false
  | .bytesT | .stringT => true
  | .arrayT none _ => true
  | .arrayT (some _) e => e.isDynamic
  | .tupleT ts => anyDynamic ts

/-- Whether any component of a tuple is dynamic. -/
def anyDynamic : List AbiType → Bool
  | [] => false
  | t :: ts => t.isDynamic || anyDynamic ts

end

mutual

/-- Encoded byte length of a static type (meaningful only when
`isDynamic` is false): one word for scalars, element count times element
size for fixed arrays, sum over components for tuples. -/
def AbiType.staticSize : AbiType → Nat
  | .uintT _ | .intT _ | .addressT | .boolT | .fixedBytesT _ => 32
  | .bytesT | .stringT => 32
  | .arrayT none _ => 32
  | .arrayT (some n) e => n * e.staticSize
  | .tupleT ts => sumStatic ts

/-- Total static size of a component list. -/
def sumStatic : List AbiType → Nat
  | [] => 0
  | t :: ts => t.staticSize + sumStatic ts

end

/-- Head-slot width of a component within a tuple/array encoding: one
offset word when dynamic, the full static size otherwise. -/
def AbiType.headSize (t : AbiType) : Nat :=
  if t.isDynamic then 32 else t.staticSize

mutual

/-- Well-formed descriptors: those the coder dispatcher can produce
(number sizes 1..32 bytes, fixed-bytes sizes 1..32). -/
def AbiType.wf : AbiType → Bool
  | .uintT s | .intT s => 1 ≤ s && s ≤ 32
  | .fixedBytesT s => 1 ≤ s && s ≤ 32
  | .addressT | .boolT | .bytesT | .stringT => true
  | .arrayT _ e => e.wf
  | .tupleT ts => allWf ts

/-- All components well-formed. -/
def allWf : List AbiType → Bool
  | [] => true
  | t :: ts => t.wf && allWf ts

end

/-! ### Numeric helpers

Translations of the big-integer helpers used by `NumberCoder`
(`mask`, `toTwos`, `fromTwos` from the vendored maths utilities): `mask`
keeps the low `bits` bits, `toTwos` produces the unsigned
two's-complement representative over `width` bits, `fromTwos` interprets
it back as a signed value. -/

/-- Low-bits mask on a nonnegative big integer. -/
def maskI (v : Int) (bits : Nat) : Int := v % (2 ^ bits : Nat)

/-- Two's-complement representative of `v` over `width` bits. -/
def toTwos (v : Int) (width : Nat) : Nat := (v % (2 ^ width : Nat)).toNat

/-- Signed interpretation of a `width`-bit two's-complement value. -/
def fromTwos (v : Nat) (width : Nat) : Int :=
  if 2 ^ (width - 1) ≤ v then (v : Int) - (2 ^ width : Nat) else (v : Int)

/-- `NumberCoder.encode` (translated from
`src/ethers-abi/src/abi/coders/number.ts`): bounds-check the value
against the declared bit width, convert signed values to
two's-complement over the full word, and write one word. -/
def numberEncode (size : Nat) (signed : Bool) (v : Int) : Except Err (List Nat) :=
  let maxUintValue : Int := maskI (2 ^ 256 - 1) (WordSize * 8)
  if signed then
    let bounds : Int := maskI maxUintValue (size * 8 - 1)
    if v > bounds ∨ v < -(bounds + 1) then .error .ValueOutOfBounds
    else .ok (word32 (toTwos v (8 * WordSize)))
  else
    if v < 0 ∨ v > maskI maxUintValue (size * 8) then .error .ValueOutOfBounds
    else .ok (word32 v.toNat)

/-- `NumberCoder.decode` on an already-read word value (translated from
`src/ethers-abi/src/abi/coders/number.ts`): mask to the declared width,
then reverse the two's-complement conversion when signed. -/
def numberDecodeVal (size : Nat) (signed : Bool) (w : Nat) : Int :=
  let value := w % 2 ^ (size * 8)
  if signed then fromTwos value (size * 8) else (value : Int)

/-- Byte length rounded up to the next word boundary. -/
def alignedLen (n : Nat) : Nat := ((n + 31) / 32) * 32

/-- Right-pad a byte sequence with zeros to a whole number of words
(`Writer.appendPadded`, spec section 4.1). -/
def padRight (bs : List Nat) : List Nat :=
  bs ++ List.replicate (alignedLen bs.length - bs.length) 0

theorem padRight_length (bs : List Nat) :
    (padRight bs).length = alignedLen bs.length := by
  simp [padRight, alignedLen]
  omega

/-! ### UTF-8

`StringCoder` delegates to the dynamic-bytes coder over the UTF-8 byte
encoding of the string (`toUtf8Bytes` / `toUtf8String`); invalid UTF-8
on decode is a decode failure (spec section 4.4). -/

/-- UTF-8 bytes of one character. -/
def utf8EncodeChar (c : Char) : List Nat :=
  let n := c.toNat
  if n < 128 then [n]
  else if n < 2048 then [192 + n / 64, 128 + n % 64]
  else if n < 65536 then [224 + n / 4096, 128 + n / 64 % 64, 128 + n % 64]
  else [240 + n / 262144, 128 + n / 4096 % 64, 128 + n / 64 % 64, 128 + n % 64]

/-- UTF-8 bytes of a string (`toUtf8Bytes`). -/
def utf8Encode : List Char → List Nat
  | [] => []
  | c :: cs => utf8EncodeChar c ++ utf8Encode cs

/-- Whether a byte is a UTF-8 continuation byte. -/
def isCont (b : Nat) : Bool := 128 ≤ b && b < 192

/-- Decode one UTF-8 sequence from the front of a byte list, returning
the code point and the number of bytes consumed; rejects bad prefixes,
truncated sequences, overlong forms, surrogates and out-of-range values. -/
def utf8DecodeChar : List Nat → Option (Nat × Nat)
  | [] => none
  | b :: rest =>
    if b < 128 then some (b, 1)
    else if b < 192 then none
    else if b < 224 then
      match rest with
      | b1 :: _ =>
        if isCont b1 then
          let n := (b - 192) * 64 + (b1 - 128)
          if n < 128 then none else some (n, 2)
        else none
      | _ => none
    else if b < 240 then
      match rest with
      | b1 :: b2 :: _ =>
        if isCont b1 && isCont b2 then
          let n := (b - 224) * 4096 + (b1 - 128) * 64 + (b2 - 128)
          if n < 2048 then none
          else if 55296 ≤ n && n < 57344 then none
          else some (n, 3)
        else none
      | _ => none
    else if b < 248 then
      match rest with
      | b1 :: b2 :: b3 :: _ =>
        if isCont b1 && isCont b2 && isCont b3 then
          let n := (b - 240) * 262144 + (b1 - 128) * 4096 + (b2 - 128) * 64 + (b3 - 128)
          if n < 65536 then none
          else if 1114112 ≤ n then none
          else some (n, 4)
        else none
      | _ => none
    else none

theorem utf8DecodeChar_consumes (bs : List Nat) (n k : Nat)
    (h : utf8DecodeChar bs = some (n, k)) : 1 ≤ k := by
  match bs with
  | [] => simp [utf8DecodeChar] at h
  | b :: rest =>
    unfold utf8DecodeChar at h
    repeat' split at h
    all_goals simp_all
    all_goals omega

/-- Decode a UTF-8 byte list to a character list (`toUtf8String`);
`none` is the `InvalidUtf8` decode failure. -/
def utf8Decode (bs : List Nat) : Option (List Char) :=
  match bs with
  | [] => some []
  | b :: rest =>
    match h : utf8DecodeChar (b :: rest) with
    | none => none
    | some (n, k) =>
      if hv : n.isValidChar then
        match utf8Decode ((b :: rest).drop k) with
        | none => none
        | some cs => some (Char.ofNat n :: cs)
      else none
termination_by bs.length
decreasing_by
  have := utf8DecodeChar_consumes _ _ _ h
  simp only [List.length_drop, List.length_cons]
  omega

set_option maxRecDepth 8192 in
/-- Decoding the front of `utf8EncodeChar c ++ rest` recovers the code
point of `c` and consumes exactly the encoding's bytes. -/
theorem utf8DecodeChar_encode (c : Char) (rest : List Nat) :
    utf8DecodeChar (utf8EncodeChar c ++ rest) = some (c.toNat, (utf8EncodeChar c).length) := by
  have hval := c.valid
  have hveq : c.val.toNat = c.toNat := rfl
  have hlt : c.toNat < 1114112 := by rcases hval with h | h <;> omega
  have hsur : ¬ (55296 ≤ c.toNat ∧ c.toNat < 57344) := by rcases hval with h | h <;> omega
  set n := c.toNat with hn
  by_cases h1 : n < 128
  · have hb : utf8EncodeChar c = [n] := by rw [utf8EncodeChar]; simp [← hn, h1]
    rw [hb]
    show utf8DecodeChar (n :: rest) = some (n, 1)
    unfold utf8DecodeChar
    dsimp only
    rw [if_pos h1]
  · by_cases h2 : n < 2048
    · have hb : utf8EncodeChar c = [192 + n / 64, 128 + n % 64] := by
        rw [utf8EncodeChar]; simp [← hn, h1, h2]
      rw [hb]
      show utf8DecodeChar ((192 + n / 64) :: (128 + n % 64) :: rest) = some (n, 2)
      unfold utf8DecodeChar
      dsimp only
      rw [if_neg (by omega), if_neg (by omega), if_pos (by omega)]
      have hc : isCont (128 + n % 64) = true := by simp only [isCont]; simp; omega
      simp only [hc, if_true]
      rw [if_neg (by omega)]
      congr 1
      have : (192 + n / 64 - 192) * 64 + (128 + n % 64 - 128) = n := by omega
      rw [this]
    · by_cases h3 : n < 65536
      · have hb : utf8EncodeChar c = [224 + n / 4096, 128 + n / 64 % 64, 128 + n % 64] := by
          rw [utf8EncodeChar]; simp [← hn, h1, h2, h3]
        rw [hb]
        show utf8DecodeChar ((224 + n / 4096) :: (128 + n / 64 % 64) :: (128 + n % 64) :: rest)
            = some (n, 3)
        unfold utf8DecodeChar
        dsimp only
        rw [if_neg (by omega), if_neg (by omega), if_neg (by omega), if_pos (by omega)]
        have hc1 : isCont (128 + n / 64 % 64) = true := by simp only [isCont]; simp; omega
        have hc2 : isCont (128 + n % 64) = true := by simp only [isCont]; simp; omega
        simp only [hc1, hc2, Bool.and_self, if_true]
        have hval' : (224 + n / 4096 - 224) * 4096 + (128 + n / 64 % 64 - 128) * 64
            + (128 + n % 64 - 128) = n := by omega
        rw [hval']
        rw [if_neg (by omega)]
        rw [if_neg (by simp; omega)]
      · have hb : utf8EncodeChar c
            = [240 + n / 262144, 128 + n / 4096 % 64, 128 + n / 64 % 64, 128 + n % 64] := by
          rw [utf8EncodeChar]; simp [← hn, h1, h2, h3]
        rw [hb]
        show utf8DecodeChar ((240 + n / 262144) :: (128 + n / 4096 % 64) :: (128 + n / 64 % 64)
            :: (128 + n % 64) :: rest) = some (n, 4)
        unfold utf8DecodeChar
        dsimp only
        rw [if_neg (by omega), if_neg (by omega), if_neg (by omega), if_neg (by omega),
          if_pos (by omega)]
        have hc1 : isCont (128 + n / 4096 % 64) = true := by simp only [isCont]; simp; omega
        have hc2 : isCont (128 + n / 64 % 64) = true := by simp only [isCont]; simp; omega
        have hc3 : isCont (128 + n % 64) = true := by simp only [isCont]; simp; omega
        simp only [hc1, hc2, hc3, Bool.and_self, if_true]
        have hval' : (240 + n / 262144 - 240) * 262144 + (128 + n / 4096 % 64 - 128) * 4096
            + (128 + n / 64 % 64 - 128) * 64 + (128 + n % 64 - 128) = n := by omega
        rw [hval']
        rw [if_neg (by omega), if_neg (by omega)]

theorem utf8EncodeChar_ne_nil (c : Char) : ∃ b bs, utf8EncodeChar c = b :: bs := by
  unfold utf8EncodeChar
  dsimp only
  repeat' split
  all_goals exact ⟨_, _, rfl⟩

theorem Char.toNat_isValidChar (c : Char) : c.toNat.isValidChar := by
  have hval := c.valid
  have hveq : c.val.toNat = c.toNat := rfl
  rcases hval with h | h
  · exact Or.inl (hveq ▸ h)
  · exact Or.inr ⟨hveq ▸ h.1, hveq ▸ h.2⟩

/-- UTF-8 decoding is a left inverse of UTF-8 encoding. -/
theorem utf8Decode_encode (s : List Char) : utf8Decode (utf8Encode s) = some s := by
  induction s with
  | nil => simp [utf8Encode, utf8Decode]
  | cons c cs ih =>
    show utf8Decode (utf8EncodeChar c ++ utf8Encode cs) = some (c :: cs)
    obtain ⟨b, bs', hb⟩ := utf8EncodeChar_ne_nil c
    have hdec := utf8DecodeChar_encode c (utf8Encode cs)
    rw [hb] at hdec ⊢
    rw [List.cons_append]
    rw [List.cons_append] at hdec
    unfold utf8Decode
    split
    · next heq => rw [hdec] at heq; cases heq
    · next n k heq =>
      rw [hdec] at heq
      injection heq with heq
      have hn : n = c.toNat := (Prod.mk.injEq _ _ _ _ ▸ heq).1.symm
      have hk : k = (b :: bs').length := by
        have := (Prod.mk.injEq _ _ _ _ ▸ heq).2
        simpa [hb] using this.symm
      subst hn
      rw [dif_pos (Char.toNat_isValidChar c)]
      have hdrop : (b :: (bs' ++ utf8Encode cs)).drop k = utf8Encode cs := by
        rw [hk, ← List.cons_append]
        exact List.drop_left _ _
      rw [hdrop, ih]
      simp [Char.ofNat_toNat]

/-! ### Reader primitives

Modelled from the spec: the `Reader` (spec section 4.2) is not part of
the repository snapshot.  A read consumes whole words; `readBytes`
consumes its byte count rounded up to the next word boundary; reads past
the declared buffer fail with `BufferUnderrun`; claimed dynamic lengths
are checked against the remaining buffer scaled by the inflation bound
before any allocation (`InflationGuardTripped`). -/

/-- Read the 32-byte word starting at byte offset `pos`. -/
def readWordAt (data : List Nat) (pos : Nat) : Except Err Nat :=
  if pos + 32 ≤ data.length then .ok (bytesToNat ((data.drop pos).take 32))
  else .error .BufferUnderrun

/-- Read `len` bytes starting at `pos`, consuming up to the next word
boundary. -/
def readBytesAt (data : List Nat) (pos len : Nat) : Except Err (List Nat) :=
  if pos + alignedLen len ≤ data.length then .ok ((data.drop pos).take len)
  else .error .BufferUnderrun

/-- The per-component data `decodeComps` needs: the coder's dynamic
flag, its static size (head-slot width when static) and its decoder. -/
structure CompCoder where
  dyn : Bool
  ssize : Nat
  dec : List Nat → Nat → Except Err AbiValue

/-- Walk the head of a tuple/array encoding (spec section 4.5): static
components decode in place at the cursor; for a dynamic component the
head word is an offset relative to `base` (the start of the enclosing
head) at which the component's tail segment is decoded. -/
def decodeComps (data : List Nat) (base : Nat) :
    List CompCoder → Nat → Except Err (List AbiValue)
  | [], _ => .ok []
  | c :: cs, pos =>
    if c.dyn then do
      let o ← readWordAt data pos
      let v ← c.dec data (base + o)
      let vs ← decodeComps data base cs (pos + 32)
      .ok (v :: vs)
    else do
      let v ← c.dec data pos
      let vs ← decodeComps data base cs (pos + c.ssize)
      .ok (v :: vs)

/-- Decoder for one type, reading its encoding at byte offset `pos` of
`data` (for a dynamic type, `pos` is the start of its tail segment).
`mi` is the inflation bound in force.  Scalar cases are translated from
the repository coders; dynamic-bytes/array/tuple layout is modelled from
the spec. -/
def decAt (mi : Nat) : AbiType → List Nat → Nat → Except Err AbiValue
  | .uintT s => fun data pos => do
      let w ← readWordAt data pos
      .ok (.int (numberDecodeVal s false w))
  | .intT s => fun data pos => do
      let w ← readWordAt data pos
      .ok (.int (numberDecodeVal s true w))
  | .addressT => fun data pos => do
      let w ← readWordAt data pos
      .ok (.addr (w % 2 ^ 160))
  | .boolT => fun data pos => do
      let w ← readWordAt data pos
      .ok (.boolV (decide (w ≠ 0)))
  | .fixedBytesT s => fun data pos => do
      let bs ← readBytesAt data pos s
      .ok (.bytes bs)
  | .bytesT => fun data pos => do
      let len ← readWordAt data pos
      if len * 1 > mi * (data.length - (pos + 32)) then .error .InflationGuardTripped
      else do
        let bs ← readBytesAt data (pos + 32) len
        .ok (.bytes bs)
  | .stringT => fun data pos => do
      let len ← readWordAt data pos
      if len * 1 > mi * (data.length - (pos + 32)) then .error .InflationGuardTripped
      else do
        let bs ← readBytesAt data (pos + 32) len
        match utf8Decode bs with
        | some s => .ok (.str s)
        | none => .error .InvalidUtf8
  | .arrayT (some n) e => fun data pos =>
      (decodeComps data pos (List.replicate n ⟨e.isDynamic, e.staticSize, decAt mi e⟩) pos).map .list
  | .arrayT none e => fun data pos => do
      let len ← readWordAt data pos
      if len * e.headSize > mi * (data.length - (pos + 32)) then .error .InflationGuardTripped
      else
        (decodeComps data (pos + 32)
          (List.replicate len ⟨e.isDynamic, e.staticSize, decAt mi e⟩) (pos + 32)).map .list
  | .tupleT ts => fun data pos =>
      (decodeComps data pos
        (ts.attach.map fun x => ⟨x.1.isDynamic, x.1.staticSize, decAt mi x.1⟩) pos).map .tup
termination_by t => sizeOf t
decreasing_by
  all_goals simp_wf
  all_goals first
    | (have h := List.sizeOf_lt_of_mem x.2; omega)
    | omega

/-! ### Writer side -/

/-- Encode a component list against the matching value list, pairing
each encoding with the component's dynamic flag; a count mismatch is the
`assertArgumentCount` failure of the tuple/array coders. -/
def encList : List (Bool × (AbiValue → Except Err (List Nat))) → List AbiValue →
    Except Err (List (Bool × List Nat))
  | [], [] => .ok []
  | c :: cs, v :: vs => do
      let e ← c.2 v
      let rest ← encList cs vs
      .ok ((c.1, e) :: rest)
  | _, _ => .error .ArgumentCountMismatch

/-- Head length of an encoded component list: one word per dynamic
component, the full encoding otherwise. -/
def headLenOf : List (Bool × List Nat) → Nat
  | [] => 0
  | (d, e) :: cs => (if d then 32 else e.length) + headLenOf cs

/-- The head region: static encodings in place, offset words (relative
to the head start) for dynamic components.  `hl` is the total head
length, `tl` the tail bytes emitted so far. -/
def headsOf (hl : Nat) : List (Bool × List Nat) → Nat → List Nat
  | [], _ => []
  | (d, e) :: cs, tl =>
      (if d then word32 (hl + tl) else e) ++ headsOf hl cs (tl + if d then e.length else 0)

/-- The tail region: the dynamic components' encodings in order. -/
def tailsOf : List (Bool × List Nat) → List Nat
  | [] => []
  | (d, e) :: cs => (if d then e else []) ++ tailsOf cs

/-- Head/tail assembly of a tuple or array body (spec section 4.5). -/
def buildHeadTail (cs : List (Bool × List Nat)) : List Nat :=
  headsOf (headLenOf cs) cs 0 ++ tailsOf cs

/-- Encoder for one type.  Scalar cases are translated from the
repository coders (`NumberCoder`, `AddressCoder`, `FixedBytesCoder`,
`StringCoder`); dynamic-bytes/array/tuple layout is modelled from the
spec. -/
def encAt : AbiType → AbiValue → Except Err (List Nat)
  | .uintT s => fun v => match v with
      | .int v => numberEncode s false v
      | _ => .error .InvalidValue
  | .intT s => fun v => match v with
      | .int v => numberEncode s true v
      | _ => .error .InvalidValue
  | .addressT => fun v => match v with
      | .addr a => if a < 2 ^ 160 then .ok (word32 a) else .error .InvalidAddressLength
      | _ => .error .InvalidValue
  | .boolT => fun v => match v with
      | .boolV b => .ok (word32 (if b then 1 else 0))
      | _ => .error .InvalidValue
  | .fixedBytesT s => fun v => match v with
      | .bytes bs =>
          if bs.length = s then .ok (padRight bs) else .error .InvalidFixedBytesLength
      | _ => .error .InvalidValue
  | .bytesT => fun v => match v with
      | .bytes bs => .ok (word32 bs.length ++ padRight bs)
      | _ => .error .InvalidValue
  | .stringT => fun v => match v with
      | .str s => .ok (word32 (utf8Encode s).length ++ padRight (utf8Encode s))
      | _ => .error .InvalidValue
  | .arrayT (some n) e => fun v => match v with
      | .list vs =>
          if vs.length = n then
            (encList (List.replicate n (e.isDynamic, encAt e)) vs).map buildHeadTail
          else .error .ArgumentCountMismatch
      | _ => .error .InvalidValue
  | .arrayT none e => fun v => match v with
      | .list vs =>
          if vs.length < 2 ^ 256 then
            (encList (List.replicate vs.length (e.isDynamic, encAt e)) vs).map
              (fun cs => word32 vs.length ++ buildHeadTail cs)
          else .error .ValueOutOfBounds
      | _ => .error .InvalidValue
  | .tupleT ts => fun v => match v with
      | .tup vs =>
          (encList (ts.attach.map fun x => (x.1.isDynamic, encAt x.1)) vs).map buildHeadTail
      | _ => .error .InvalidValue
termination_by t => sizeOf t
decreasing_by
  all_goals simp_wf
  all_goals first
    | (have h := List.sizeOf_lt_of_mem x.2; omega)
    | omega

/-- Default value of a coder (zero / empty / false per type, spec
section 4.7; `NumberCoder.defaultValue` and
`FixedBytesCoder.defaultValue` from the repository sources). -/
def defaultValue : AbiType → AbiValue
  | .uintT _ | .intT _ => .int 0
  | .addressT => .addr 0
  | .boolT => .boolV false
  | .fixedBytesT s => .bytes (List.replicate s 0)
  | .bytesT => .bytes []
  | .stringT => .str []
  | .arrayT (some n) e => .list (List.replicate n (defaultValue e))
  | .arrayT none _ => .list []
  | .tupleT ts => .tup (ts.attach.map fun x => defaultValue x.1)
termination_by t => sizeOf t
decreasing_by
  all_goals simp_wf
  all_goals first
    | (have h := List.sizeOf_lt_of_mem x.2; omega)
    | omega

/-! ### AbiCoder facade (translated from the repository `AbiCoder`) -/

/-- `AbiCoder.encode`: check the argument count, then encode the values
as the components of a synthetic top-level tuple. -/
def abiEncode (ts : List AbiType) (vs : List AbiValue) : Except Err (List Nat) :=
  if vs.length ≠ ts.length then .error .ArgumentCountMismatch
  else encAt (.tupleT ts) (.tup vs)

/-- `AbiCoder.decode` with inflation bound `mi`: decode the data as a
synthetic top-level tuple over the types. -/
def abiDecode (mi : Nat) (ts : List AbiType) (data : List Nat) :
    Except Err (List AbiValue) :=
  match decAt mi (.tupleT ts) data 0 with
  | .ok (.tup vs) => .ok vs
  | .ok _ => .error .InvalidValue
  | .error e => .error e

/-- `AbiCoder.getDefaultValue`. -/
def abiDefault (ts : List AbiType) : List AbiValue := ts.map defaultValue

/-- The module-level mutable state of the coder module
(`defaultMaxInflation`, initially 1024). -/
structure CoderGlobals where
  defaultMaxInflation : Nat
  deriving DecidableEq, Repr

/-- The state at module load. -/
def initGlobals : CoderGlobals := ⟨1024⟩

/-- `AbiCoder._setDefaultMaxInflation`. -/
def setDefaultMaxInflation (v : Nat) (_g : CoderGlobals) : CoderGlobals := ⟨v⟩

/-- `AbiCoder.decode` as actually dispatched: the inflation bound comes
from the module state, not from the call's arguments. -/
def decodeWithGlobals (g : CoderGlobals) (ts : List AbiType) (data : List Nat) :
    Except Err (List AbiValue) :=
  abiDecode g.defaultMaxInflation ts data

/-! ### Buffer segment reasoning -/

/-- `seg` occupies bytes `[p, p + seg.length)` of `data`. -/
def SegAt (data : List Nat) (p : Nat) (seg : List Nat) : Prop :=
  p + seg.length ≤ data.length ∧ (data.drop p).take seg.length = seg

theorem SegAt.append_left {data : List Nat} {p : Nat} {a b : List Nat}
    (h : SegAt data p (a ++ b)) : SegAt data p a := by
  obtain ⟨h1, h2⟩ := h
  constructor
  · simp [List.length_append] at h1; omega
  · have := congrArg (fun l => List.take a.length l) h2
    simpa [List.take_take, List.take_left, Nat.min_le_left,
      Nat.min_def, List.length_append] using this

theorem SegAt.append_right {data : List Nat} {p : Nat} {a b : List Nat}
    (h : SegAt data p (a ++ b)) : SegAt data (p + a.length) b := by
  obtain ⟨h1, h2⟩ := h
  constructor
  · simp [List.length_append] at h1; omega
  · rw [← List.drop_drop]
    rw [List.take_drop]
    rw [List.length_append] at h2
    rw [h2]
    exact List.drop_left a b

theorem SegAt.of_middle (pre seg post : List Nat) :
    SegAt (pre ++ seg ++ post) pre.length seg := by
  constructor
  · simp [List.length_append]
  · rw [List.append_assoc, List.drop_left, List.take_left]

theorem SegAt.congr_pos {data : List Nat} {p q : Nat} {seg : List Nat}
    (h : SegAt data p seg) (hpq : p = q) : SegAt data q seg := hpq ▸ h

theorem bytesToNat_word32 (n : Nat) : bytesToNat (word32 n) = n % 2 ^ 256 := by
  have h : (256 : Nat) ^ 32 = 2 ^ 256 := by
    calc (256 : Nat) ^ 32 = (2 ^ 8) ^ 32 := by norm_num
      _ = 2 ^ 256 := by rw [← pow_mul]
  rw [word32, show WordSize = 32 from rfl, bytesToNat_natToBytesBE, h]

/-- Reading a word from a segment holding `word32 n` yields `n % 2^256`. -/
theorem readWordAt_seg {data : List Nat} {p n : Nat}
    (h : SegAt data p (word32 n)) : readWordAt data p = .ok (n % 2 ^ 256) := by
  obtain ⟨h1, h2⟩ := h
  rw [word32_length] at h1 h2
  unfold readWordAt
  rw [if_pos h1, h2]
  rw [bytesToNat_word32]

/-- Reading `bs.length` bytes from a segment holding `padRight bs`
yields `bs`. -/
theorem readBytesAt_seg {data : List Nat} {p : Nat} {bs : List Nat}
    (h : SegAt data p (padRight bs)) : readBytesAt data p bs.length = .ok bs := by
  obtain ⟨h1, h2⟩ := h
  rw [padRight_length] at h1 h2
  unfold readBytesAt
  rw [if_pos h1]
  congr 1
  have := congrArg (fun l => List.take bs.length l) h2
  simp only at this
  rw [List.take_take] at this
  have hle : bs.length ≤ alignedLen bs.length := by unfold alignedLen; omega
  rw [Nat.min_eq_left hle] at this
  rw [this, padRight, List.take_left]

theorem headsOf_length (cs : List (Bool × List Nat)) :
    ∀ hl t0, (headsOf hl cs t0).length = headLenOf cs := by
  induction cs with
  | nil => intro hl t0; rfl
  | cons c cs ih =>
    intro hl t0
    obtain ⟨d, e⟩ := c
    cases d <;> simp [headsOf, headLenOf, ih, word32_length]

theorem buildHeadTail_length (cs : List (Bool × List Nat)) :
    (buildHeadTail cs).length = headLenOf cs + (tailsOf cs).length := by
  simp [buildHeadTail, headsOf_length]

/-- Pointwise facts `decodeComps` needs about one component list:
flag agreement, head-slot width for static components, and local decode
correctness of each component's encoding. -/
inductive Comps (data : List Nat) :
    List (Bool × List Nat) → List CompCoder → List AbiValue → Prop where
  | nil : Comps data [] [] []
  | cons {d : Bool} {e : List Nat} {cc : CompCoder} {v : AbiValue}
      {cs : List (Bool × List Nat)} {ds : List CompCoder} {ws : List AbiValue} :
      cc.dyn = d → (d = false → cc.ssize = e.length) →
      (∀ p, SegAt data p e → cc.dec data p = .ok v) →
      Comps data cs ds ws → Comps data ((d, e) :: cs) (cc :: ds) (v :: ws)

/-- Walking a correctly laid-out head (offsets relative to `base`, tail
following at `base + hl + t0`) returns the component values. -/
theorem decodeComps_of_comps {data : List Nat} {base : Nat}
    (hdata : data.length < 2 ^ 256) :
    ∀ {cs ds ws}, Comps data cs ds ws →
    ∀ h0 t0 hl,
      SegAt data (base + h0) (headsOf hl cs t0) →
      SegAt data (base + hl + t0) (tailsOf cs) →
      decodeComps data base ds (base + h0) = .ok ws := by
  intro cs ds ws hcomp
  induction hcomp with
  | nil => intro h0 t0 hl _ _; simp [decodeComps]
  | @cons d e cc v cs ds ws hdyn hss hdec _ ih =>
    intro h0 t0 hl hh ht
    cases d with
    | true =>
      rw [show headsOf hl ((true, e) :: cs) t0
          = word32 (hl + t0) ++ headsOf hl cs (t0 + e.length) by simp [headsOf]] at hh
      rw [show tailsOf ((true, e) :: cs) = e ++ tailsOf cs by simp [tailsOf]] at ht
      have hofflt : hl + t0 < 2 ^ 256 := by
        have := ht.1; omega
      have hread : readWordAt data (base + h0) = .ok (hl + t0) := by
        rw [readWordAt_seg hh.append_left, Nat.mod_eq_of_lt hofflt]
      have hseg : SegAt data (base + (hl + t0)) e :=
        ht.append_left.congr_pos (by omega)
      have hv := hdec _ hseg
      have hrest : decodeComps data base ds (base + h0 + 32) = .ok ws := by
        have hh' : SegAt data (base + (h0 + 32)) (headsOf hl cs (t0 + e.length)) :=
          (hh.append_right.congr_pos (by rw [word32_length]; omega))
        have ht' : SegAt data (base + hl + (t0 + e.length)) (tailsOf cs) :=
          (ht.append_right.congr_pos (by omega))
        have := ih (h0 + 32) (t0 + e.length) hl hh' ht'
        rw [show base + (h0 + 32) = base + h0 + 32 by omega] at this
        exact this
      simp [decodeComps, hdyn, hread, hv, hrest, bind, Except.bind]
    | false =>
      rw [show headsOf hl ((false, e) :: cs) t0
          = e ++ headsOf hl cs t0 by simp [headsOf]] at hh
      rw [show tailsOf ((false, e) :: cs) = tailsOf cs by simp [tailsOf]] at ht
      have hv := hdec _ hh.append_left
      have hrest : decodeComps data base ds (base + h0 + cc.ssize) = .ok ws := by
        have hh' : SegAt data (base + (h0 + e.length)) (headsOf hl cs t0) :=
          (hh.append_right.congr_pos (by omega))
        have := ih (h0 + e.length) t0 hl hh' ht
        rw [show base + (h0 + e.length) = base + h0 + e.length by omega] at this
        rw [hss rfl]
        exact this
      simp [decodeComps, hdyn, hv, hrest, bind, Except.bind]

/-! ### Unfolding the composite coders -/

/-- The component record the decoder builds for a child type. -/
def mkComp (mi : Nat) (t : AbiType) : CompCoder :=
  ⟨t.isDynamic, t.staticSize, decAt mi t⟩

theorem decAt_tuple (mi : Nat) (ts : List AbiType) (data : List Nat) (pos : Nat) :
    decAt mi (.tupleT ts) data pos
      = (decodeComps data pos (ts.map (mkComp mi)) pos).map .tup := by
  rw [decAt]
  dsimp only
  rw [show (fun (x : {x // x ∈ ts}) =>
        (⟨(x.1).isDynamic, (x.1).staticSize, decAt mi x.1⟩ : CompCoder))
      = fun (x : {x // x ∈ ts}) => mkComp mi x.1 from rfl]
  rw [List.attach_map_val ts (mkComp mi)]

theorem decAt_array_some (mi n : Nat) (e : AbiType) (data : List Nat) (pos : Nat) :
    decAt mi (.arrayT (some n) e) data pos
      = (decodeComps data pos (List.replicate n (mkComp mi e)) pos).map .list := by
  rw [decAt]
  rfl

theorem encAt_tuple (ts : List AbiType) (vs : List AbiValue) :
    encAt (.tupleT ts) (.tup vs)
      = (encList (ts.map fun t => (t.isDynamic, encAt t)) vs).map buildHeadTail := by
  rw [encAt]
  dsimp only
  rw [List.attach_map_val ts (fun t => (t.isDynamic, encAt t))]

theorem encAt_array_some (n : Nat) (e : AbiType) (vs : List AbiValue) :
    encAt (.arrayT (some n) e) (.list vs)
      = (if vs.length = n then
          (encList (List.replicate n (e.isDynamic, encAt e)) vs).map buildHeadTail
        else .error .ArgumentCountMismatch) := by
  rw [encAt]

theorem encAt_array_none (e : AbiType) (vs : List AbiValue) :
    encAt (.arrayT none e) (.list vs)
      = (if vs.length < 2 ^ 256 then
          (encList (List.replicate vs.length (e.isDynamic, encAt e)) vs).map
            (fun cs => word32 vs.length ++ buildHeadTail cs)
        else .error .ValueOutOfBounds) := by
  rw [encAt]

/-- `encList` succeeded on a component list: each value encoded `ok`,
pairing each encoding with its type's dynamic flag. -/
inductive EncComps : List AbiType → List AbiValue → List (Bool × List Nat) → Prop where
  | nil : EncComps [] [] []
  | cons {t : AbiType} {v : AbiValue} {e : List Nat} {ts : List AbiType}
      {vs : List AbiValue} {cs : List (Bool × List Nat)} :
      encAt t v = .ok e → EncComps ts vs cs →
      EncComps (t :: ts) (v :: vs) ((t.isDynamic, e) :: cs)

theorem encList_encComps : ∀ (ts : List AbiType) (vs : List AbiValue)
    (cs : List (Bool × List Nat)),
    encList (ts.map fun t => (t.isDynamic, encAt t)) vs = .ok cs → EncComps ts vs cs := by
  intro ts
  induction ts with
  | nil =>
    intro vs cs h
    cases vs with
    | nil =>
      simp [encList] at h
      subst h
      exact .nil
    | cons v vs => simp [encList] at h
  | cons t ts ih =>
    intro vs cs h
    cases vs with
    | nil => simp [encList] at h
    | cons v vs =>
      rw [List.map_cons] at h
      unfold encList at h
      dsimp only at h
      cases he : encAt t v with
      | error err => rw [he] at h; simp [bind, Except.bind] at h
      | ok e =>
        rw [he] at h
        cases hr : encList (ts.map fun t => (t.isDynamic, encAt t)) vs with
        | error err => rw [hr] at h; simp [bind, Except.bind] at h
        | ok rest =>
          rw [hr] at h
          simp [bind, Except.bind] at h
          subst h
          exact .cons he (ih vs rest hr)

theorem encComps_lengths {ts : List AbiType} {vs : List AbiValue}
    {cs : List (Bool × List Nat)} (h : EncComps ts vs cs) :
    ts.length = vs.length ∧ cs.length = ts.length := by
  induction h with
  | nil => simp
  | cons _ _ ih => simp [ih]

/-! ### Encoded lengths -/

theorem alignedLen_mod (n : Nat) : alignedLen n % 32 = 0 := by
  simp [alignedLen, Nat.mul_mod_left]

theorem alignedLen_ge (n : Nat) : n ≤ alignedLen n := by
  simp [alignedLen]; omega

theorem alignedLen_of_le32 {n : Nat} (h1 : 1 ≤ n) (h2 : n ≤ 32) : alignedLen n = 32 := by
  simp [alignedLen]; omega

theorem numberEncode_ok_length {s : Nat} {sg : Bool} {v : Int} {e : List Nat}
    (h : numberEncode s sg v = .ok e) : e.length = 32 := by
  unfold numberEncode at h
  dsimp only at h
  generalize maskI (maskI (2 ^ 256 - 1) (WordSize * 8)) (s * 8 - 1) = B at h
  generalize maskI (maskI (2 ^ 256 - 1) (WordSize * 8)) (s * 8) = C at h
  split at h <;> split at h
  · exact Except.noConfusion h
  · rw [← Except.ok.inj h]; exact word32_length _
  · exact Except.noConfusion h
  · rw [← Except.ok.inj h]; exact word32_length _

/-- Total head length of a component list. -/
def sumHead : List AbiType → Nat
  | [] => 0
  | t :: ts => t.headSize + sumHead ts

theorem sumHead_replicate (n : Nat) (t : AbiType) :
    sumHead (List.replicate n t) = n * t.headSize := by
  induction n with
  | zero => simp [List.replicate, sumHead]
  | succ k ih => simp [List.replicate_succ, sumHead, ih]; ring

theorem anyDynamic_eq_false (ts : List AbiType) :
    anyDynamic ts = false ↔ ∀ t ∈ ts, t.isDynamic = false := by
  induction ts with
  | nil => simp [anyDynamic]
  | cons t ts ih => simp [anyDynamic, ih]

theorem allWf_eq_true (ts : List AbiType) :
    allWf ts = true ↔ ∀ t ∈ ts, t.wf = true := by
  induction ts with
  | nil => simp [allWf]
  | cons t ts ih => simp [allWf, ih]

theorem sumHead_eq_sumStatic {ts : List AbiType}
    (h : ∀ t ∈ ts, t.isDynamic = false) : sumHead ts = sumStatic ts := by
  induction ts with
  | nil => rfl
  | cons t ts ih =>
    have ht := h t (by simp)
    simp [sumHead, sumStatic, AbiType.headSize, ht,
      ih (fun x hx => h x (by simp [hx]))]

/-- The length facts the composite-length proof needs of each child. -/
def LenOk (t : AbiType) : Prop :=
  ∀ v e, encAt t v = .ok e →
    e.length % 32 = 0 ∧ (t.isDynamic = false → e.length = t.staticSize)

theorem encComps_headLen {ts : List AbiType} {vs : List AbiValue}
    {cs : List (Bool × List Nat)} (h : EncComps ts vs cs)
    (hlen : ∀ t ∈ ts, LenOk t) :
    headLenOf cs = sumHead ts ∧ headLenOf cs % 32 = 0
      ∧ (tailsOf cs).length % 32 = 0
      ∧ ((∀ t ∈ ts, t.isDynamic = false) → tailsOf cs = []) := by
  induction h with
  | nil => simp [headLenOf, tailsOf, sumHead]
  | @cons t v e ts vs cs he _ ih =>
    have hlt := hlen t (by simp)
    obtain ⟨hmod, hstat⟩ := hlt v e he
    have ihh := ih (fun x hx => hlen x (by simp [hx]))
    obtain ⟨ih1, ih2, ih3, ih4⟩ := ihh
    cases hdyn : t.isDynamic with
    | true =>
      refine ⟨?_, ?_, ?_, ?_⟩
      · simp [headLenOf, sumHead, AbiType.headSize, hdyn, ih1]
      · simp [headLenOf, hdyn]; omega
      · simp [tailsOf, hdyn, List.length_append]; omega
      · intro hall
        have := hall t (by simp)
        rw [hdyn] at this; cases this
    | false =>
      refine ⟨?_, ?_, ?_, ?_⟩
      · simp [headLenOf, sumHead, AbiType.headSize, hdyn, ih1, hstat hdyn]
      · simp [headLenOf, hdyn]; omega
      · simp [tailsOf, hdyn, List.length_append]; omega
      · intro hall
        simp [tailsOf, hdyn]
        exact ih4 (fun x hx => hall x (by simp [hx]))

theorem sizeOf_lt_array (o : Option Nat) (e : AbiType) :
    sizeOf e < sizeOf (AbiType.arrayT o e) := by
  cases o <;> simp <;> omega

theorem sizeOf_lt_tuple {t : AbiType} {ts : List AbiType} (h : t ∈ ts) :
    sizeOf t < sizeOf (AbiType.tupleT ts) := by
  have := List.sizeOf_lt_of_mem h
  simp
  omega

/-- Encoded lengths: every successful encoding is a whole number of
words, and a static type's encoding has exactly its static size. -/
theorem encAt_length : ∀ (N : Nat) (t : AbiType), sizeOf t = N → t.wf = true → LenOk t := by
  intro N
  induction N using Nat.strong_induction_on with
  | _ N ih =>
    intro t hsz hwf
    subst hsz
    intro v e henc
    cases t with
    | uintT s =>
      cases v
      case int x =>
        have hl := numberEncode_ok_length (by rw [encAt] at henc; exact henc)
        exact ⟨by omega, fun _ => by rw [hl]; simp [AbiType.staticSize]⟩
      all_goals (rw [encAt] at henc; exact Except.noConfusion henc)
    | intT s =>
      cases v
      case int x =>
        have hl := numberEncode_ok_length (by rw [encAt] at henc; exact henc)
        exact ⟨by omega, fun _ => by rw [hl]; simp [AbiType.staticSize]⟩
      all_goals (rw [encAt] at henc; exact Except.noConfusion henc)
    | addressT =>
      cases v
      case addr a =>
        rw [encAt] at henc
        dsimp only at henc
        split at henc
        · rw [← Except.ok.inj henc]
          exact ⟨by simp [word32_length], fun _ => by
            simp [word32_length, AbiType.staticSize]⟩
        · exact Except.noConfusion henc
      all_goals (rw [encAt] at henc; exact Except.noConfusion henc)
    | boolT =>
      cases v
      case boolV b =>
        rw [encAt] at henc
        dsimp only at henc
        rw [← Except.ok.inj henc]
        exact ⟨by simp [word32_length], fun _ => by simp [word32_length, AbiType.staticSize]⟩
      all_goals (rw [encAt] at henc; exact Except.noConfusion henc)
    | fixedBytesT s =>
      simp only [AbiType.wf, Bool.and_eq_true, decide_eq_true_eq] at hwf
      cases v
      case bytes bs =>
        rw [encAt] at henc
        dsimp only at henc
        split at henc
        · next hbl =>
          rw [← Except.ok.inj henc]
          rw [padRight_length, hbl, alignedLen_of_le32 hwf.1 hwf.2]
          exact ⟨by omega, fun _ => by simp [AbiType.staticSize]⟩
        · exact Except.noConfusion henc
      all_goals (rw [encAt] at henc; exact Except.noConfusion henc)
    | bytesT =>
      cases v
      case bytes bs =>
        rw [encAt] at henc
        dsimp only at henc
        rw [← Except.ok.inj henc]
        constructor
        · simp only [List.length_append, word32_length, padRight_length]
          have := alignedLen_mod bs.length
          omega
        · intro hstat
          rw [show AbiType.isDynamic .bytesT = true by simp [AbiType.isDynamic]] at hstat
          exact Bool.noConfusion hstat
      all_goals (rw [encAt] at henc; exact Except.noConfusion henc)
    | stringT =>
      cases v
      case str str =>
        rw [encAt] at henc
        dsimp only at henc
        rw [← Except.ok.inj henc]
        constructor
        · simp only [List.length_append, word32_length, padRight_length]
          have := alignedLen_mod (utf8Encode str).length
          omega
        · intro hstat
          rw [show AbiType.isDynamic .stringT = true by simp [AbiType.isDynamic]] at hstat
          exact Bool.noConfusion hstat
      all_goals (rw [encAt] at henc; exact Except.noConfusion henc)
    | arrayT o elem =>
      have hwfe : elem.wf = true := by
        cases o <;> simpa [AbiType.wf] using hwf
      have hlenE : LenOk elem :=
        ih (sizeOf elem) (sizeOf_lt_array o elem) elem rfl hwfe
      cases o with
      | some n =>
        cases v
        case list vs =>
          rw [encAt_array_some] at henc
          split at henc
          · cases hr : encList (List.replicate n (elem.isDynamic, encAt elem)) vs with
            | error err => rw [hr] at henc; exact Except.noConfusion henc
            | ok cs =>
              rw [hr] at henc
              simp only [Except.map] at henc
              rw [← Except.ok.inj henc]
              have hcomp : EncComps (List.replicate n elem) vs cs := by
                apply encList_encComps
                rw [List.map_replicate]
                exact hr
              have hlen : ∀ x ∈ List.replicate n elem, LenOk x := by
                intro x hx
                rw [List.eq_of_mem_replicate hx]
                exact hlenE
              obtain ⟨h1, h2, h3, h4⟩ := encComps_headLen hcomp hlen
              constructor
              · rw [buildHeadTail_length]; omega
              · intro hstat
                have hed : elem.isDynamic = false := by
                  simpa [AbiType.isDynamic] using hstat
                rw [buildHeadTail_length,
                  h4 (by intro x hx; rw [List.eq_of_mem_replicate hx]; exact hed),
                  h1, sumHead_replicate]
                simp [AbiType.staticSize, AbiType.headSize, hed]
          · exact Except.noConfusion henc
        all_goals (rw [encAt] at henc; exact Except.noConfusion henc)
      | none =>
        cases v
        case list vs =>
          rw [encAt_array_none] at henc
          split at henc
          case isFalse => exact Except.noConfusion henc
          cases hr : encList (List.replicate vs.length (elem.isDynamic, encAt elem)) vs with
          | error err => rw [hr] at henc; exact Except.noConfusion henc
          | ok cs =>
            rw [hr] at henc
            simp only [Except.map] at henc
            rw [← Except.ok.inj henc]
            have hcomp : EncComps (List.replicate vs.length elem) vs cs := by
              apply encList_encComps
              rw [List.map_replicate]
              exact hr
            have hlen : ∀ x ∈ List.replicate vs.length elem, LenOk x := by
              intro x hx
              rw [List.eq_of_mem_replicate hx]
              exact hlenE
            obtain ⟨h1, h2, h3, h4⟩ := encComps_headLen hcomp hlen
            constructor
            · simp only [List.length_append, word32_length, buildHeadTail_length]
              omega
            · intro hstat
              rw [show AbiType.isDynamic (.arrayT none elem) = true by
                simp [AbiType.isDynamic]] at hstat
              exact Bool.noConfusion hstat
        all_goals (rw [encAt] at henc; exact Except.noConfusion henc)
    | tupleT ts =>
      have hwfl : ∀ x ∈ ts, x.wf = true := by
        rw [← allWf_eq_true]
        simpa [AbiType.wf] using hwf
      cases v
      case tup vs =>
        rw [encAt_tuple] at henc
        cases hr : encList (ts.map fun t => (t.isDynamic, encAt t)) vs with
        | error err => rw [hr] at henc; exact Except.noConfusion henc
        | ok cs =>
          rw [hr] at henc
          simp only [Except.map] at henc
          rw [← Except.ok.inj henc]
          have hcomp : EncComps ts vs cs := encList_encComps ts vs cs hr
          have hlen : ∀ x ∈ ts, LenOk x := by
            intro x hx
            exact ih (sizeOf x) (sizeOf_lt_tuple hx) x rfl (hwfl x hx)
          obtain ⟨h1, h2, h3, h4⟩ := encComps_headLen hcomp hlen
          constructor
          · rw [buildHeadTail_length]; omega
          · intro hstat
            have hall : ∀ x ∈ ts, x.isDynamic = false := by
              rw [← anyDynamic_eq_false]
              simpa [AbiType.isDynamic] using hstat
            rw [buildHeadTail_length, h4 hall, h1, sumHead_eq_sumStatic hall]
            simp [AbiType.staticSize]
      all_goals (rw [encAt] at henc; exact Except.noConfusion henc)

/-! ### Number coder characterization -/

theorem maxUint_mod (k : Nat) (hk : k ≤ 256) :
    ((2 ^ 256 - 1 : Nat)) % (2 ^ k) = 2 ^ k - 1 := by
  have h1 : (2:Nat) ^ 256 = 2 ^ (256 - k) * 2 ^ k := by
    rw [← pow_add]; congr 1; omega
  have h2 : 1 ≤ (2:Nat) ^ (256 - k) := Nat.one_le_two_pow
  have h3 : 1 ≤ (2:Nat) ^ k := Nat.one_le_two_pow
  have h5 : ((2:Nat) ^ (256 - k) - 1) * 2 ^ k = 2 ^ (256 - k) * 2 ^ k - 2 ^ k := by
    rw [Nat.sub_mul, one_mul]
  have h6 : (2:Nat) ^ k ≤ 2 ^ (256 - k) * 2 ^ k := Nat.le_mul_of_pos_left _ (by omega)
  have h4 : (2:Nat) ^ 256 - 1 = (2 ^ k - 1) + (2 ^ (256 - k) - 1) * 2 ^ k := by
    rw [h5, h1]; omega
  rw [h4, Nat.add_mul_mod_self_right, Nat.mod_eq_of_lt (by omega)]

theorem maskI_maxUint (k : Nat) (hk : k ≤ 256) :
    maskI (maskI (2 ^ 256 - 1) (WordSize * 8)) k = ((2 ^ k : Nat) : Int) - 1 := by
  unfold maskI
  have hws : WordSize * 8 = 256 := rfl
  rw [hws]
  have hcast : ((2 : Int) ^ 256 - 1) = ((2 ^ 256 - 1 : Nat) : Int) := by
    push_cast [Nat.one_le_two_pow]
  rw [hcast]
  rw [← Int.ofNat_emod, ← Int.ofNat_emod]
  rw [maxUint_mod 256 (by omega), maxUint_mod k hk]
  push_cast [Nat.one_le_two_pow]
  ring

theorem numberEncode_unsigned_iff (s : Nat) (hs2 : s ≤ 32) (x : Int) :
    numberEncode s false x =
      (if 0 ≤ x ∧ x ≤ ((2 ^ (s * 8) : Nat) : Int) - 1 then .ok (word32 x.toNat)
       else .error .ValueOutOfBounds) := by
  unfold numberEncode
  dsimp only
  rw [if_neg (by simp : ¬(false = true))]
  rw [maskI_maxUint (s * 8) (by omega)]
  split <;> split
  all_goals try rfl
  all_goals exfalso
  all_goals omega

theorem numberEncode_signed_iff (s : Nat) (hs1 : 1 ≤ s) (hs2 : s ≤ 32) (x : Int) :
    numberEncode s true x =
      (if -((2 ^ (s * 8 - 1) : Nat) : Int) ≤ x ∧ x ≤ ((2 ^ (s * 8 - 1) : Nat) : Int) - 1
       then .ok (word32 (toTwos x (8 * WordSize)))
       else .error .ValueOutOfBounds) := by
  unfold numberEncode
  dsimp only
  rw [if_pos (rfl : true = true)]
  rw [maskI_maxUint (s * 8 - 1) (by omega)]
  split <;> split
  all_goals try rfl
  all_goals exfalso
  all_goals omega

theorem twos_roundtrip (bits : Nat) (hb : 1 ≤ bits) (hb2 : bits ≤ 256) (x : Int)
    (hlo : -((2 ^ (bits - 1) : Nat) : Int) ≤ x)
    (hhi : x ≤ ((2 ^ (bits - 1) : Nat) : Int) - 1) :
    fromTwos ((toTwos x 256) % 2 ^ bits) bits = x := by
  unfold toTwos fromTwos
  have hmodnn : 0 ≤ x % ((2 ^ 256 : Nat) : Int) := Int.emod_nonneg x (by positivity)
  have hmx : (((x % ((2 ^ 256 : Nat) : Int)).toNat : Nat) : Int) = x % ((2 ^ 256 : Nat) : Int) :=
    Int.toNat_of_nonneg hmodnn
  have hdvd : (((2 ^ bits : Nat) : Int)) ∣ (((2 ^ 256 : Nat) : Int)) := by
    exact_mod_cast Int.natCast_dvd_natCast.mpr (pow_dvd_pow 2 hb2)
  have hkey : (((x % ((2 ^ 256 : Nat) : Int)).toNat % 2 ^ bits : Nat) : Int)
      = x % ((2 ^ bits : Nat) : Int) := by
    rw [Int.ofNat_emod, hmx, Int.emod_emod_of_dvd x hdvd]
  have hQP : (2 ^ bits : Nat) = 2 * 2 ^ (bits - 1) := by
    rw [← pow_succ']
    congr 1
    omega
  have hP1 : 1 ≤ (2 : Nat) ^ (bits - 1) := Nat.one_le_two_pow
  have hQ1 : ((2 ^ bits : Nat) : Int) = 2 * ((2 ^ (bits - 1) : Nat) : Int) := by
    exact_mod_cast congrArg (fun n => ((n : Nat) : Int)) hQP
  rcases le_or_lt 0 x with hx | hx
  · have hxlt : x < ((2 ^ bits : Nat) : Int) := by omega
    have hXx : x % ((2 ^ bits : Nat) : Int) = x := Int.emod_eq_of_lt hx hxlt
    rw [hXx] at hkey
    rw [if_neg (by omega)]
    omega
  · have hge : 0 ≤ x + ((2 ^ bits : Nat) : Int) := by omega
    have hlt : x + ((2 ^ bits : Nat) : Int) < ((2 ^ bits : Nat) : Int) := by omega
    have h1 : x % ((2 ^ bits : Nat) : Int) = x + ((2 ^ bits : Nat) : Int) := by
      have h2 : (x + ((2 ^ bits : Nat) : Int) * 1) % ((2 ^ bits : Nat) : Int)
          = x % ((2 ^ bits : Nat) : Int) :=
        Int.add_mul_emod_self_left x (((2 ^ bits : Nat) : Int)) 1
      rw [mul_one] at h2
      rw [← h2, Int.emod_eq_of_lt hge hlt]
    rw [h1] at hkey
    rw [if_pos (by omega)]
    omega

/-! ### The local round-trip property -/

/-- Round trip for one type: decoding the segment produced by a
successful encoding (wherever it sits in a buffer shorter than `2^256`
bytes) returns the encoded value. -/
def RT (mi : Nat) (t : AbiType) : Prop :=
  ∀ v e, encAt t v = .ok e →
    ∀ data p, data.length < 2 ^ 256 → SegAt data p e → decAt mi t data p = .ok v

theorem encComps_to_comps {mi : Nat} {data : List Nat}
    {ts : List AbiType} {vs : List AbiValue} {cs : List (Bool × List Nat)}
    (h : EncComps ts vs cs)
    (hrt : ∀ t ∈ ts, RT mi t)
    (hlen : ∀ t ∈ ts, LenOk t)
    (hdata : data.length < 2 ^ 256) :
    Comps data cs (ts.map (mkComp mi)) vs := by
  induction h with
  | nil => exact .nil
  | @cons t v e ts vs cs he _ ih =>
    rw [List.map_cons]
    refine .cons rfl ?_ ?_
      (ih (fun x hx => hrt x (by simp [hx])) (fun x hx => hlen x (by simp [hx])))
    · intro hd
      exact (((hlen t (by simp)) v e he).2 hd).symm
    · intro q hseg
      exact hrt t (by simp) v e he data q hdata hseg

theorem pow_le_pow_256 {k : Nat} (hk : k ≤ 256) : (2 : Nat) ^ k ≤ 2 ^ 256 :=
  Nat.pow_le_pow_right (by omega) hk

/-- The core round-trip theorem, by strong induction on the type:
a well-formed type's decoder is a left inverse of its encoder on any
buffer segment. -/
theorem decAt_encAt (mi : Nat) (hmi : 1 ≤ mi) :
    ∀ (N : Nat) (t : AbiType), sizeOf t = N → t.wf = true → RT mi t := by
  intro N
  induction N using Nat.strong_induction_on with
  | _ N ih =>
    intro t hsz hwf
    subst hsz
    intro v e henc data p hdata hseg
    cases t with
    | uintT s =>
      simp only [AbiType.wf, Bool.and_eq_true, decide_eq_true_eq] at hwf
      cases v
      case int x =>
        rw [encAt] at henc
        dsimp only at henc
        rw [numberEncode_unsigned_iff s hwf.2 x] at henc
        split at henc
        case isFalse => exact Except.noConfusion henc
        next hrange =>
          rw [← Except.ok.inj henc] at hseg
          have hxnn : (x.toNat : Int) = x := Int.toNat_of_nonneg hrange.1
          have hxlt : x.toNat < 2 ^ (s * 8) := by omega
          have hle := @pow_le_pow_256 (s * 8) (by omega)
          rw [decAt]
          simp only [bind, Except.bind, readWordAt_seg hseg]
          rw [Nat.mod_eq_of_lt (by omega)]
          simp only [numberDecodeVal, Bool.false_eq_true, if_false,
            Nat.mod_eq_of_lt hxlt]
          rw [hxnn]
      all_goals (rw [encAt] at henc; exact Except.noConfusion henc)
    | intT s =>
      simp only [AbiType.wf, Bool.and_eq_true, decide_eq_true_eq] at hwf
      cases v
      case int x =>
        rw [encAt] at henc
        dsimp only at henc
        rw [numberEncode_signed_iff s hwf.1 hwf.2 x] at henc
        split at henc
        case isFalse => exact Except.noConfusion henc
        next hrange =>
          rw [← Except.ok.inj henc] at hseg
          have htlt : toTwos x (8 * WordSize) < 2 ^ 256 := by
            unfold toTwos
            have h1 : x % ((2 ^ (8 * WordSize) : Nat) : Int) < ((2 ^ (8 * WordSize) : Nat) : Int) :=
              Int.emod_lt_of_pos x (by positivity)
            have hws : 8 * WordSize = 256 := rfl
            rw [hws] at h1 ⊢
            omega
          rw [decAt]
          simp only [bind, Except.bind, readWordAt_seg hseg]
          rw [Nat.mod_eq_of_lt htlt]
          simp only [numberDecodeVal, if_true]
          rw [show (8 : Nat) * WordSize = 256 from rfl] at *
          rw [twos_roundtrip (s * 8) (by omega) (by omega) x
            (by have := hrange.1; omega) (by have := hrange.2; omega)]
      all_goals (rw [encAt] at henc; exact Except.noConfusion henc)
    | addressT =>
      cases v
      case addr a =>
        rw [encAt] at henc
        dsimp only at henc
        split at henc
        case isFalse => exact Except.noConfusion henc
        next ha =>
          rw [← Except.ok.inj henc] at hseg
          have hle := @pow_le_pow_256 160 (by omega)
          rw [decAt]
          simp only [bind, Except.bind, readWordAt_seg hseg]
          rw [Nat.mod_eq_of_lt (show a < 2 ^ 256 by omega), Nat.mod_eq_of_lt ha]
      all_goals (rw [encAt] at henc; exact Except.noConfusion henc)
    | boolT =>
      cases v
      case boolV b =>
        rw [encAt] at henc
        dsimp only at henc
        rw [← Except.ok.inj henc] at hseg
        rw [decAt]
        simp only [bind, Except.bind, readWordAt_seg hseg]
        have h2 : 1 < 2 ^ 256 := Nat.one_lt_two_pow (by omega)
        cases b
        · simp
        · simp [Nat.mod_eq_of_lt h2]
      all_goals (rw [encAt] at henc; exact Except.noConfusion henc)
    | fixedBytesT s =>
      cases v
      case bytes bs =>
        rw [encAt] at henc
        dsimp only at henc
        split at henc
        case isFalse => exact Except.noConfusion henc
        next hbl =>
          rw [← Except.ok.inj henc] at hseg
          rw [decAt]
          simp only [bind, Except.bind, ← hbl, readBytesAt_seg hseg]
      all_goals (rw [encAt] at henc; exact Except.noConfusion henc)
    | bytesT =>
      cases v
      case bytes bs =>
        rw [encAt] at henc
        dsimp only at henc
        rw [← Except.ok.inj henc] at hseg
        have hs1 := hseg.append_left
        have hs2 := SegAt.congr_pos hseg.append_right (by rw [word32_length] : _ = p + 32)
        have hlen : bs.length < 2 ^ 256 := by
          have := hs2.1
          have := alignedLen_ge bs.length
          rw [padRight_length] at *
          omega
        have hrem : bs.length ≤ mi * (data.length - (p + 32)) := by
          have h1 := hs2.1
          rw [padRight_length] at h1
          have h2 := alignedLen_ge bs.length
          have h3 : data.length - (p + 32) ≤ mi * (data.length - (p + 32)) :=
            Nat.le_mul_of_pos_left _ (by omega)
          omega
        rw [decAt]
        simp only [bind, Except.bind, readWordAt_seg hs1]
        rw [Nat.mod_eq_of_lt hlen]
        rw [if_neg (by omega)]
        simp only [bind, Except.bind, readBytesAt_seg hs2]
      all_goals (rw [encAt] at henc; exact Except.noConfusion henc)
    | stringT =>
      cases v
      case str st =>
        rw [encAt] at henc
        dsimp only at henc
        rw [← Except.ok.inj henc] at hseg
        have hs1 := hseg.append_left
        have hs2 := SegAt.congr_pos hseg.append_right (by rw [word32_length] : _ = p + 32)
        have hlen : (utf8Encode st).length < 2 ^ 256 := by
          have := hs2.1
          have := alignedLen_ge (utf8Encode st).length
          rw [padRight_length] at *
          omega
        have hrem : (utf8Encode st).length ≤ mi * (data.length - (p + 32)) := by
          have h1 := hs2.1
          rw [padRight_length] at h1
          have h2 := alignedLen_ge (utf8Encode st).length
          have h3 : data.length - (p + 32) ≤ mi * (data.length - (p + 32)) :=
            Nat.le_mul_of_pos_left _ (by omega)
          omega
        rw [decAt]
        simp only [bind, Except.bind, readWordAt_seg hs1]
        rw [Nat.mod_eq_of_lt hlen]
        rw [if_neg (by omega)]
        simp only [bind, Except.bind, readBytesAt_seg hs2]
        rw [utf8Decode_encode]
      all_goals (rw [encAt] at henc; exact Except.noConfusion henc)
    | arrayT o elem =>
      have hwfe : elem.wf = true := by
        cases o <;> simpa [AbiType.wf] using hwf
      have hrtE : RT mi elem :=
        ih (sizeOf elem) (sizeOf_lt_array o elem) elem rfl hwfe
      have hlenE : LenOk elem := encAt_length (sizeOf elem) elem rfl hwfe
      cases o with
      | some n =>
        cases v
        case list vs =>
          rw [encAt_array_some] at henc
          split at henc
          case isFalse => exact Except.noConfusion henc
          next hvn =>
            cases hr : encList (List.replicate n (elem.isDynamic, encAt elem)) vs with
            | error err => rw [hr] at henc; exact Except.noConfusion henc
            | ok cs =>
              rw [hr] at henc
              simp only [Except.map] at henc
              rw [← Except.ok.inj henc] at hseg
              have hcomp : EncComps (List.replicate n elem) vs cs := by
                apply encList_encComps
                rw [List.map_replicate]
                exact hr
              have hcs : Comps data cs (List.replicate n (mkComp mi elem)) vs := by
                have := encComps_to_comps hcomp
                  (fun x hx => by rw [List.eq_of_mem_replicate hx]; exact hrtE)
                  (fun x hx => by rw [List.eq_of_mem_replicate hx]; exact hlenE)
                  hdata
                rwa [List.map_replicate] at this
              rw [buildHeadTail] at hseg
              have hh : SegAt data (p + 0) (headsOf (headLenOf cs) cs 0) :=
                hseg.append_left.congr_pos (by omega)
              have ht : SegAt data (p + headLenOf cs + 0) (tailsOf cs) :=
                hseg.append_right.congr_pos (by rw [headsOf_length]; omega)
              have hdec := decodeComps_of_comps hdata hcs 0 0 (headLenOf cs) hh ht
              rw [Nat.add_zero] at hdec
              rw [decAt_array_some, hdec]
              rfl
        all_goals (rw [encAt] at henc; exact Except.noConfusion henc)
      | none =>
        cases v
        case list vs =>
          rw [encAt_array_none] at henc
          split at henc
          case isFalse => exact Except.noConfusion henc
          next hvlt =>
            cases hr : encList (List.replicate vs.length (elem.isDynamic, encAt elem)) vs with
            | error err => rw [hr] at henc; exact Except.noConfusion henc
            | ok cs =>
              rw [hr] at henc
              simp only [Except.map] at henc
              rw [← Except.ok.inj henc] at hseg
              have hcomp : EncComps (List.replicate vs.length elem) vs cs := by
                apply encList_encComps
                rw [List.map_replicate]
                exact hr
              have hcs : Comps data cs (List.replicate vs.length (mkComp mi elem)) vs := by
                have := encComps_to_comps hcomp
                  (fun x hx => by rw [List.eq_of_mem_replicate hx]; exact hrtE)
                  (fun x hx => by rw [List.eq_of_mem_replicate hx]; exact hlenE)
                  hdata
                rwa [List.map_replicate] at this
              have hs1 := hseg.append_left
              have hs2 := SegAt.congr_pos hseg.append_right (by rw [word32_length] : _ = p + 32)
              obtain ⟨hhl, _, _, _⟩ := encComps_headLen hcomp
                (fun x hx => by rw [List.eq_of_mem_replicate hx]; exact hlenE)
              rw [sumHead_replicate] at hhl
              have hguard : vs.length * elem.headSize ≤ mi * (data.length - (p + 32)) := by
                have h1 := hs2.1
                rw [buildHeadTail_length] at h1
                have h3 : data.length - (p + 32) ≤ mi * (data.length - (p + 32)) :=
                  Nat.le_mul_of_pos_left _ (by omega)
                omega
              rw [buildHeadTail] at hs2
              have hh : SegAt data (p + 32 + 0) (headsOf (headLenOf cs) cs 0) :=
                hs2.append_left.congr_pos (by omega)
              have ht : SegAt data (p + 32 + headLenOf cs + 0) (tailsOf cs) :=
                hs2.append_right.congr_pos (by rw [headsOf_length]; omega)
              have hdec := decodeComps_of_comps hdata hcs 0 0 (headLenOf cs) hh ht
              rw [Nat.add_zero] at hdec
              rw [decAt]
              simp only [bind, Except.bind, readWordAt_seg hs1]
              rw [Nat.mod_eq_of_lt hvlt]
              rw [if_neg (by omega)]
              simp only [mkComp] at hdec
              rw [hdec]
              rfl
        all_goals (rw [encAt] at henc; exact Except.noConfusion henc)
    | tupleT ts =>
      have hwfl : ∀ x ∈ ts, x.wf = true := by
        rw [← allWf_eq_true]
        simpa [AbiType.wf] using hwf
      cases v
      case tup vs =>
        rw [encAt_tuple] at henc
        cases hr : encList (ts.map fun t => (t.isDynamic, encAt t)) vs with
        | error err => rw [hr] at henc; exact Except.noConfusion henc
        | ok cs =>
          rw [hr] at henc
          simp only [Except.map] at henc
          rw [← Except.ok.inj henc] at hseg
          have hcomp : EncComps ts vs cs := encList_encComps ts vs cs hr
          have hcs : Comps data cs (ts.map (mkComp mi)) vs :=
            encComps_to_comps hcomp
              (fun x hx => ih (sizeOf x) (sizeOf_lt_tuple hx) x rfl (hwfl x hx))
              (fun x hx => encAt_length (sizeOf x) x rfl (hwfl x hx))
              hdata
          rw [buildHeadTail] at hseg
          have hh : SegAt data (p + 0) (headsOf (headLenOf cs) cs 0) :=
            hseg.append_left.congr_pos (by omega)
          have ht : SegAt data (p + headLenOf cs + 0) (tailsOf cs) :=
            hseg.append_right.congr_pos (by rw [headsOf_length]; omega)
          have hdec := decodeComps_of_comps hdata hcs 0 0 (headLenOf cs) hh ht
          rw [Nat.add_zero] at hdec
          rw [decAt_tuple, hdec]
          rfl
      all_goals (rw [encAt] at henc; exact Except.noConfusion henc)

/-! ### Facade-level round trip -/

/-- Decoding the output of a successful `encode` (any buffer shorter
than `2^256` bytes) with any inflation bound `≥ 1` returns the encoded
values. -/
theorem abi_roundtrip (mi : Nat) (hmi : 1 ≤ mi) (ts : List AbiType)
    (vs : List AbiValue) (data : List Nat)
    (hwf : ∀ t ∈ ts, t.wf = true)
    (henc : abiEncode ts vs = .ok data)
    (hsz : data.length < 2 ^ 256) :
    abiDecode mi ts data = .ok vs := by
  unfold abiEncode at henc
  split at henc
  case isTrue => exact Except.noConfusion henc
  have hwft : (AbiType.tupleT ts).wf = true := by
    simp only [AbiType.wf]
    rw [allWf_eq_true]
    exact hwf
  have hseg : SegAt data 0 data := by
    constructor
    · omega
    · simp
  have hdec := decAt_encAt mi hmi (sizeOf (AbiType.tupleT ts)) (.tupleT ts) rfl hwft
    (.tup vs) data henc data 0 hsz hseg
  unfold abiDecode
  rw [hdec]

/-! ### Default values encode successfully -/

theorem encList_replicate_ok {d : Bool} {f : AbiValue → Except Err (List Nat)}
    {v : AbiValue} {e : List Nat} (h : f v = .ok e) (n : Nat) :
    encList (List.replicate n (d, f)) (List.replicate n v)
      = .ok (List.replicate n (d, e)) := by
  induction n with
  | zero => simp [encList]
  | succ k ih =>
    simp only [List.replicate_succ]
    unfold encList
    dsimp only
    rw [h, ih]
    rfl

theorem encList_map_defaults : ∀ (ts : List AbiType),
    (∀ t ∈ ts, ∃ e, encAt t (defaultValue t) = .ok e) →
    ∃ cs, encList (ts.map fun t => (t.isDynamic, encAt t)) (ts.map defaultValue) = .ok cs := by
  intro ts h
  induction ts with
  | nil => exact ⟨[], rfl⟩
  | cons t ts ih =>
    obtain ⟨e, he⟩ := h t (by simp)
    obtain ⟨cs, hcs⟩ := ih (fun x hx => h x (by simp [hx]))
    refine ⟨(t.isDynamic, e) :: cs, ?_⟩
    simp only [List.map_cons]
    unfold encList
    dsimp only
    rw [he, hcs]
    rfl

/-- Every well-formed type's default value encodes successfully. -/
theorem encAt_default : ∀ (N : Nat) (t : AbiType), sizeOf t = N → t.wf = true →
    ∃ e, encAt t (defaultValue t) = .ok e := by
  intro N
  induction N using Nat.strong_induction_on with
  | _ N ih =>
    intro t hsz hwf
    subst hsz
    cases t with
    | uintT s =>
      simp only [AbiType.wf, Bool.and_eq_true, decide_eq_true_eq] at hwf
      refine ⟨word32 (0 : Int).toNat, ?_⟩
      rw [defaultValue, encAt]
      dsimp only
      rw [numberEncode_unsigned_iff s hwf.2 0]
      rw [if_pos ?_]
      have : 1 ≤ 2 ^ (s * 8) := Nat.one_le_two_pow
      constructor
      · omega
      · omega
    | intT s =>
      simp only [AbiType.wf, Bool.and_eq_true, decide_eq_true_eq] at hwf
      refine ⟨word32 (toTwos 0 (8 * WordSize)), ?_⟩
      rw [defaultValue, encAt]
      dsimp only
      rw [numberEncode_signed_iff s hwf.1 hwf.2 0]
      rw [if_pos ?_]
      have : 1 ≤ 2 ^ (s * 8 - 1) := Nat.one_le_two_pow
      constructor
      · omega
      · omega
    | addressT =>
      refine ⟨word32 0, ?_⟩
      rw [defaultValue, encAt]
      dsimp only
      rw [if_pos (by positivity)]
    | boolT =>
      refine ⟨word32 0, ?_⟩
      rw [defaultValue, encAt]
      rfl

    | fixedBytesT s =>
      refine ⟨padRight (List.replicate s 0), ?_⟩
      rw [defaultValue, encAt]
      dsimp only
      rw [if_pos (by simp)]
    | bytesT =>
      refine ⟨word32 0 ++ padRight [], ?_⟩
      rw [defaultValue, encAt]
      rfl
    | stringT =>
      refine ⟨word32 (utf8Encode []).length ++ padRight (utf8Encode []), ?_⟩
      rw [defaultValue, encAt]
    | arrayT o elem =>
      have hwfe : elem.wf = true := by
        cases o <;> simpa [AbiType.wf] using hwf
      obtain ⟨e, he⟩ := ih (sizeOf elem) (sizeOf_lt_array o elem) elem rfl hwfe
      cases o with
      | some n =>
        refine ⟨buildHeadTail (List.replicate n (elem.isDynamic, e)), ?_⟩
        rw [defaultValue, encAt_array_some]
        rw [if_pos (by simp)]
        rw [encList_replicate_ok he n]
        rfl
      | none =>
        refine ⟨word32 0 ++ buildHeadTail [], ?_⟩
        rw [defaultValue, encAt_array_none]
        rw [if_pos (by positivity)]
        rfl
    | tupleT ts =>
      have hwfl : ∀ x ∈ ts, x.wf = true := by
        rw [← allWf_eq_true]
        simpa [AbiType.wf] using hwf
      have hdef : defaultValue (.tupleT ts) = .tup (ts.map defaultValue) := by
        rw [defaultValue, List.attach_map_val ts defaultValue]
      obtain ⟨cs, hcs⟩ := encList_map_defaults ts
        (fun x hx => ih (sizeOf x) (sizeOf_lt_tuple hx) x rfl (hwfl x hx))
      refine ⟨buildHeadTail cs, ?_⟩
      rw [hdef, encAt_tuple, hcs]
      rfl

/-! ### The coder dispatcher on leaf type strings

Translated from `AbiCoder.#getCoder` (`src/unnamed/part_007`, lines
62-102): the base-type switch, then the `u?int[0-9]*` pattern with the
bit-length check `size !== 0 && size <= 256 && size % 8 === 0`, then the
`bytes[0-9]*` pattern with `size !== 0 && size <= 32`.  Type strings are
character lists; the `NullCoder` case for the empty type string is
omitted (the claims under verification never reach it). -/

/-- All characters are decimal digits. -/
def isDigits (cs : List Char) : Bool := cs.all fun c => 48 ≤ c.toNat && c.toNat ≤ 57

/-- Value of a decimal digit string (`parseInt` of a matched suffix). -/
def digitsVal (cs : List Char) : Nat := cs.foldl (fun a c => a * 10 + (c.toNat - 48)) 0

/-- Match against `^(u?int)([0-9]*)$`: the signedness and the digit
suffix. -/
def matchNum (s : List Char) : Option (Bool × List Char) :=
  if s.take 4 = ['u', 'i', 'n', 't'] ∧ isDigits (s.drop 4) then some (false, s.drop 4)
  else if s.take 3 = ['i', 'n', 't'] ∧ isDigits (s.drop 3) then some (true, s.drop 3)
  else none

/-- Match against `^bytes([0-9]*)$`: the digit suffix. -/
def matchBytesN (s : List Char) : Option (List Char) :=
  if s.take 5 = ['b', 'y', 't', 'e', 's'] ∧ isDigits (s.drop 5) then some (s.drop 5)
  else none

/-- The leaf-type dispatcher: which coder a non-array, non-tuple type
string selects, or `InvalidType`. -/
def getCoderLeaf (s : List Char) : Except Err AbiType :=
  if s = ['a', 'd', 'd', 'r', 'e', 's', 's'] then .ok .addressT
  else if s = ['b', 'o', 'o', 'l'] then .ok .boolT
  else if s = ['s', 't', 'r', 'i', 'n', 'g'] then .ok .stringT
  else if s = ['b', 'y', 't', 'e', 's'] then .ok .bytesT
  else if s = [] then .error .UnsupportedType
  else
    match matchNum s with
    | some (signed, ds) =>
      let size := if ds = [] then 256 else digitsVal ds
      if size ≠ 0 ∧ size ≤ 256 ∧ size % 8 = 0 then
        .ok (if signed then .intT (size / 8) else .uintT (size / 8))
      else .error .InvalidType
    | none =>
      match matchBytesN s with
      | some ds =>
        let size := digitsVal ds
        if size ≠ 0 ∧ size ≤ 32 then .ok (.fixedBytesT size) else .error .InvalidType
      | none => .error .InvalidType

theorem cons_ne_of_head {α : Type} {a b : α} {l1 l2 : List α} (h : a ≠ b) :
    a :: l1 ≠ b :: l2 := fun he => h (List.cons.inj he).1

theorem cons_ne_of_tail {α : Type} {a : α} {l1 l2 : List α} (h : l1 ≠ l2) :
    a :: l1 ≠ a :: l2 := fun he => h (List.cons.inj he).2

theorem getCoderLeaf_uint (ds : List Char) (hds : isDigits ds = true) :
    getCoderLeaf ('u' :: 'i' :: 'n' :: 't' :: ds)
      = (let n := if ds = [] then 256 else digitsVal ds
         if n % 8 = 0 ∧ 8 ≤ n ∧ n ≤ 256 then .ok (.uintT (n / 8))
         else .error .InvalidType) := by
  unfold getCoderLeaf
  rw [if_neg (cons_ne_of_head (by decide))]
  rw [if_neg (cons_ne_of_head (by decide))]
  rw [if_neg (cons_ne_of_head (by decide))]
  rw [if_neg (cons_ne_of_head (by decide))]
  rw [if_neg (by simp)]
  unfold matchNum
  rw [if_pos ⟨rfl, hds⟩]
  dsimp only
  rw [show List.drop 4 ('u' :: 'i' :: 'n' :: 't' :: ds) = ds from rfl]
  rw [if_neg (by decide : ¬(false = true))]
  by_cases hds0 : ds = []
  · subst hds0
    norm_num
  · simp only [hds0, if_false]
    split <;> split
    · rfl
    · exfalso; omega
    · exfalso; omega
    · rfl

theorem getCoderLeaf_int (ds : List Char) (hds : isDigits ds = true) :
    getCoderLeaf ('i' :: 'n' :: 't' :: ds)
      = (let n := if ds = [] then 256 else digitsVal ds
         if n % 8 = 0 ∧ 8 ≤ n ∧ n ≤ 256 then .ok (.intT (n / 8))
         else .error .InvalidType) := by
  unfold getCoderLeaf
  rw [if_neg (cons_ne_of_head (by decide))]
  rw [if_neg (cons_ne_of_head (by decide))]
  rw [if_neg (cons_ne_of_head (by decide))]
  rw [if_neg (cons_ne_of_head (by decide))]
  rw [if_neg (by simp)]
  unfold matchNum
  rw [if_neg ?hne]
  case hne =>
    intro hcontra
    have h1 := hcontra.1
    cases ds with
    | nil => exact absurd h1 (by decide)
    | cons d ds2 => exact absurd (List.cons.inj h1).1 (by decide)
  rw [if_pos ⟨rfl, hds⟩]
  dsimp only
  rw [show List.drop 3 ('i' :: 'n' :: 't' :: ds) = ds from rfl]
  rw [if_pos (rfl : true = true)]
  by_cases hds0 : ds = []
  · subst hds0
    norm_num
  · simp only [hds0, if_false]
    split <;> split
    · rfl
    · exfalso; omega
    · exfalso; omega
    · rfl

theorem getCoderLeaf_bytesN (ds : List Char) (hds : isDigits ds = true) :
    getCoderLeaf ('b' :: 'y' :: 't' :: 'e' :: 's' :: ds)
      = (if ds = [] then .ok .bytesT
         else if 1 ≤ digitsVal ds ∧ digitsVal ds ≤ 32 then .ok (.fixedBytesT (digitsVal ds))
         else .error .InvalidType) := by
  cases ds with
  | nil =>
    unfold getCoderLeaf
    rw [if_neg (cons_ne_of_head (by decide))]
    rw [if_neg (cons_ne_of_tail (cons_ne_of_head (by decide)))]
    rw [if_neg (cons_ne_of_head (by decide))]
    rw [if_pos rfl]
    rfl
  | cons d ds2 =>
    unfold getCoderLeaf
    rw [if_neg (cons_ne_of_head (by decide))]
    rw [if_neg (cons_ne_of_tail (cons_ne_of_head (by decide)))]
    rw [if_neg (cons_ne_of_head (by decide))]
    rw [if_neg (by intro h; have := congrArg List.length h; simp at this)]
    rw [if_neg (by simp)]
    unfold matchNum
    rw [if_neg ?hne1]
    case hne1 =>
      intro hcontra
      exact absurd (List.cons.inj hcontra.1).1 (by decide)
    rw [if_neg ?hne2]
    case hne2 =>
      intro hcontra
      exact absurd (List.cons.inj hcontra.1).1 (by decide)
    unfold matchBytesN
    rw [if_pos ⟨rfl, hds⟩]
    dsimp only
    rw [show List.drop 5 ('b' :: 'y' :: 't' :: 'e' :: 's' :: d :: ds2) = d :: ds2 from rfl]
    rw [if_neg (by simp : ¬(d :: ds2 = []))]
    split <;> split
    · rfl
    · exfalso; omega
    · exfalso; omega
    · rfl

/-! ### Unfold equations for the dynamic-leaf decoders -/

theorem decAt_bytes_eval (mi : Nat) (data : List Nat) (pos : Nat) :
    decAt mi .bytesT data pos = (do
      let len ← readWordAt data pos
      if len * 1 > mi * (data.length - (pos + 32)) then .error .InflationGuardTripped
      else do
        let bs ← readBytesAt data (pos + 32) len
        .ok (.bytes bs)) := by
  rw [decAt]

theorem decAt_string_eval (mi : Nat) (data : List Nat) (pos : Nat) :
    decAt mi .stringT data pos = (do
      let len ← readWordAt data pos
      if len * 1 > mi * (data.length - (pos + 32)) then .error .InflationGuardTripped
      else do
        let bs ← readBytesAt data (pos + 32) len
        match utf8Decode bs with
        | some s => .ok (.str s)
        | none => .error .InvalidUtf8) := by
  rw [decAt]

theorem decAt_array_none_eval (mi : Nat) (e : AbiType) (data : List Nat) (pos : Nat) :
    decAt mi (.arrayT none e) data pos = (do
      let len ← readWordAt data pos
      if len * e.headSize > mi * (data.length - (pos + 32)) then .error .InflationGuardTripped
      else
        (decodeComps data (pos + 32)
          (List.replicate len ⟨e.isDynamic, e.staticSize, decAt mi e⟩) (pos + 32)).map .list) := by
  rw [decAt]

/-! ### Claims -/

/-- C2: for a `NumberCoder` of byte size `s` in `[1, 32]`, unsigned
encoding succeeds exactly when the value is in `[0, 2^(8s) - 1]` and
signed encoding exactly when it is in `[-2^(8s-1), 2^(8s-1) - 1]`; any
out-of-range value fails with `ValueOutOfBounds`. -/
theorem claim2_number_bounds (s : Nat) (h1 : 1 ≤ s) (h2 : s ≤ 32) (v : Int) :
    ((∃ e, numberEncode s false v = .ok e) ↔
      (0 ≤ v ∧ v ≤ ((2 ^ (s * 8) : Nat) : Int) - 1))
    ∧ (¬(0 ≤ v ∧ v ≤ ((2 ^ (s * 8) : Nat) : Int) - 1) →
        numberEncode s false v = .error .ValueOutOfBounds)
    ∧ ((∃ e, numberEncode s true v = .ok e) ↔
        (-((2 ^ (s * 8 - 1) : Nat) : Int) ≤ v ∧ v ≤ ((2 ^ (s * 8 - 1) : Nat) : Int) - 1))
    ∧ (¬(-((2 ^ (s * 8 - 1) : Nat) : Int) ≤ v ∧ v ≤ ((2 ^ (s * 8 - 1) : Nat) : Int) - 1) →
        numberEncode s true v = .error .ValueOutOfBounds) := by
  refine ⟨?_, ?_, ?_, ?_⟩
  · rw [numberEncode_unsigned_iff s h2 v]
    constructor
    · intro he
      obtain ⟨e, he⟩ := he
      by_contra hc
      rw [if_neg hc] at he
      exact Except.noConfusion he
    · intro hc
      rw [if_pos hc]
      exact ⟨_, rfl⟩
  · intro hc
    rw [numberEncode_unsigned_iff s h2 v, if_neg hc]
  · rw [numberEncode_signed_iff s h1 h2 v]
    constructor
    · intro he
      obtain ⟨e, he⟩ := he
      by_contra hc
      rw [if_neg hc] at he
      exact Except.noConfusion he
    · intro hc
      rw [if_pos hc]
      exact ⟨_, rfl⟩
  · intro hc
    rw [numberEncode_signed_iff s h1 h2 v, if_neg hc]

/-- C2 witness: `uint8` accepts 255 and rejects 256, `int8` rejects
-129. -/
theorem claim2_witness :
    (∃ e, numberEncode 1 false 255 = .ok e)
    ∧ numberEncode 1 false 256 = .error .ValueOutOfBounds
    ∧ numberEncode 1 true (-129) = .error .ValueOutOfBounds := by
  refine ⟨?_, ?_, ?_⟩
  · exact ((claim2_number_bounds 1 (by omega) (by omega) 255).1).mpr (by decide)
  · exact (claim2_number_bounds 1 (by omega) (by omega) 256).2.1 (by decide)
  · exact (claim2_number_bounds 1 (by omega) (by omega) (-129)).2.2.2 (by decide)

/-- C3: wherever the decoder reads a dynamic-length word (dynamic
bytes, strings, dynamic arrays), a claimed length that, times the
element's head size, exceeds the remaining buffer by more than the
inflation bound fails with `InflationGuardTripped` (before any byte of
the content is read). -/
theorem claim3_inflation_guard (mi : Nat) (data : List Nat) (pos len : Nat)
    (hread : readWordAt data pos = .ok len) :
    (len * 1 > mi * (data.length - (pos + 32)) →
      decAt mi .bytesT data pos = .error .InflationGuardTripped)
    ∧ (len * 1 > mi * (data.length - (pos + 32)) →
      decAt mi .stringT data pos = .error .InflationGuardTripped)
    ∧ (∀ e : AbiType, len * e.headSize > mi * (data.length - (pos + 32)) →
      decAt mi (.arrayT none e) data pos = .error .InflationGuardTripped) := by
  refine ⟨?_, ?_, ?_⟩
  · intro hg
    rw [decAt_bytes_eval]
    simp only [bind, Except.bind, hread]
    rw [if_pos hg]
  · intro hg
    rw [decAt_string_eval]
    simp only [bind, Except.bind, hread]
    rw [if_pos hg]
  · intro e hg
    rw [decAt_array_none_eval]
    simp only [bind, Except.bind, hread]
    rw [if_pos hg]

/-- C3 witness: a dynamic-bytes buffer whose length word claims `2^200`
bytes while no content remains trips the guard under the default bound
1024. -/
theorem claim3_witness :
    decAt 1024 .bytesT (word32 (2 ^ 200)) 0 = .error .InflationGuardTripped := by
  have hread : readWordAt (word32 (2 ^ 200)) 0 = .ok (2 ^ 200) := by rfl
  exact (claim3_inflation_guard 1024 (word32 (2 ^ 200)) 0 (2 ^ 200) hread).1 (by decide)

/-- C7: a `FixedBytesCoder` of size `s` in `[1, 32]` encodes exactly
the inputs of `s` bytes, left-aligned in one word and right-padded with
zeros, failing with `InvalidFixedBytesLength` otherwise; decode returns
the first `s` bytes of the word. -/
theorem claim7_fixed_bytes (mi s : Nat) (h1 : 1 ≤ s) (h2 : s ≤ 32) :
    (∀ bs : List Nat, encAt (.fixedBytesT s) (.bytes bs)
        = if bs.length = s then .ok (bs ++ List.replicate (32 - s) 0)
          else .error .InvalidFixedBytesLength)
    ∧ (∀ (data : List Nat) (p : Nat), p + 32 ≤ data.length →
        decAt mi (.fixedBytesT s) data p = .ok (.bytes ((data.drop p).take s))) := by
  constructor
  · intro bs
    rw [encAt]
    dsimp only
    split
    · next hbl =>
      rw [padRight, hbl, alignedLen_of_le32 h1 h2]
    · rfl
  · intro data p hp
    rw [decAt]
    have hb : readBytesAt data p s = .ok ((data.drop p).take s) := by
      unfold readBytesAt
      rw [alignedLen_of_le32 h1 h2, if_pos hp]
    simp only [bind, Except.bind, hb]

/-- C7 witness: `bytes4` on a 4-byte input and on a 3-byte input, and
decoding the first 4 bytes back. -/
theorem claim7_witness :
    encAt (.fixedBytesT 4) (.bytes [1, 2, 3, 4])
      = .ok ([1, 2, 3, 4] ++ List.replicate 28 0)
    ∧ encAt (.fixedBytesT 4) (.bytes [1, 2, 3]) = .error .InvalidFixedBytesLength
    ∧ decAt 1024 (.fixedBytesT 4) ([1, 2, 3, 4] ++ List.replicate 28 0) 0
      = .ok (.bytes [1, 2, 3, 4]) := by
  refine ⟨?_, ?_, ?_⟩
  · rw [(claim7_fixed_bytes 1024 4 (by omega) (by omega)).1 [1, 2, 3, 4]]
    rfl
  · rw [(claim7_fixed_bytes 1024 4 (by omega) (by omega)).1 [1, 2, 3]]
    rfl
  · rw [(claim7_fixed_bytes 1024 4 (by omega) (by omega)).2
      ([1, 2, 3, 4] ++ List.replicate 28 0) 0 (by simp)]
    rfl

/-- The word value the reader sees at byte offset `p`. -/
def wordValAt (data : List Nat) (p : Nat) : Nat := bytesToNat ((data.drop p).take 32)

/-- C9: `NumberCoder.decode` is total on any readable word and silently
truncates: `uintN` decoding returns the word value reduced modulo
`2^(8N)` with no error, and `intN` decoding applies the two's-complement
sign interpretation to that truncated value. -/
theorem claim9_number_decode_truncates (mi s : Nat) (data : List Nat) (p : Nat)
    (h : p + 32 ≤ data.length) :
    decAt mi (.uintT s) data p = .ok (.int ((wordValAt data p % 2 ^ (s * 8) : Nat) : Int))
    ∧ decAt mi (.intT s) data p
      = .ok (.int (fromTwos (wordValAt data p % 2 ^ (s * 8)) (s * 8))) := by
  have hr : readWordAt data p = .ok (wordValAt data p) := by
    unfold readWordAt wordValAt
    rw [if_pos h]
  constructor
  · rw [decAt]
    simp only [bind, Except.bind, hr, numberDecodeVal]
    rfl
  · rw [decAt]
    simp only [bind, Except.bind, hr, numberDecodeVal]
    rfl

/-- C9 witness: decoding `uint8` from an all-ones word silently returns
255, and `int8` returns -1. -/
theorem claim9_witness :
    decAt 1024 (.uintT 1) (List.replicate 32 255) 0 = .ok (.int 255)
    ∧ decAt 1024 (.intT 1) (List.replicate 32 255) 0 = .ok (.int (-1)) := by
  have h := claim9_number_decode_truncates 1024 1 (List.replicate 32 255) 0 (by simp)
  constructor
  · rw [h.1]
    have : wordValAt (List.replicate 32 255) 0 % 2 ^ (1 * 8) = 255 := by decide
    rw [this]
    norm_num
  · rw [h.2]
    have : wordValAt (List.replicate 32 255) 0 % 2 ^ (1 * 8) = 255 := by decide
    rw [this]
    rfl

/-- C6: the dispatcher accepts `uintN`/`intN` exactly for a digit
suffix whose value `N` is a multiple of 8 with `8 ≤ N ≤ 256` (a bare
`uint`/`int` meaning 256), and `bytesN` exactly for `1 ≤ N ≤ 32` (bare
`bytes` being the dynamic type); every other suffix value fails with
`InvalidType`. -/
theorem claim6_dispatcher (ds : List Char) (hds : isDigits ds = true) :
    (getCoderLeaf ('u' :: 'i' :: 'n' :: 't' :: ds)
      = (let n := if ds = [] then 256 else digitsVal ds
         if n % 8 = 0 ∧ 8 ≤ n ∧ n ≤ 256 then .ok (.uintT (n / 8))
         else .error .InvalidType))
    ∧ (getCoderLeaf ('i' :: 'n' :: 't' :: ds)
      = (let n := if ds = [] then 256 else digitsVal ds
         if n % 8 = 0 ∧ 8 ≤ n ∧ n ≤ 256 then .ok (.intT (n / 8))
         else .error .InvalidType))
    ∧ (getCoderLeaf ('b' :: 'y' :: 't' :: 'e' :: 's' :: ds)
      = (if ds = [] then .ok .bytesT
         else if 1 ≤ digitsVal ds ∧ digitsVal ds ≤ 32 then .ok (.fixedBytesT (digitsVal ds))
         else .error .InvalidType)) :=
  ⟨getCoderLeaf_uint ds hds, getCoderLeaf_int ds hds, getCoderLeaf_bytesN ds hds⟩

/-- C6 witness: `uint256` gives the 32-byte unsigned coder, `int7` and
`bytes33` fail with `InvalidType`. -/
theorem claim6_witness :
    getCoderLeaf ('u' :: 'i' :: 'n' :: 't' :: ['2', '5', '6']) = .ok (.uintT 32)
    ∧ getCoderLeaf ('i' :: 'n' :: 't' :: ['7']) = .error .InvalidType
    ∧ getCoderLeaf ('b' :: 'y' :: 't' :: 'e' :: 's' :: ['3', '3'])
      = .error .InvalidType := by
  refine ⟨?_, ?_, ?_⟩
  · rw [(claim6_dispatcher ['2', '5', '6'] (by decide)).1]
    rfl
  · rw [(claim6_dispatcher ['7'] (by decide)).2.1]
    rfl
  · rw [(claim6_dispatcher ['3', '3'] (by decide)).2.2]
    rfl

/-- C8: `StringCoder` delegates to the dynamic-bytes coder over the
UTF-8 bytes of the string on encode; on decode it UTF-8 decodes the
bytes the dynamic-bytes coder retrieves, failing with `InvalidUtf8`
when they are not valid UTF-8. -/
theorem claim8_string_coder :
    (∀ s : List Char, encAt .stringT (.str s) = encAt .bytesT (.bytes (utf8Encode s)))
    ∧ (∀ (mi : Nat) (data : List Nat) (p : Nat) (bs : List Nat),
        decAt mi .bytesT data p = .ok (.bytes bs) →
        decAt mi .stringT data p
          = match utf8Decode bs with
            | some s => .ok (.str s)
            | none => .error .InvalidUtf8) := by
  constructor
  · intro s
    rw [encAt, encAt]
  · intro mi data p bs h
    rw [decAt_bytes_eval] at h
    rw [decAt_string_eval]
    cases hw : readWordAt data p with
    | error err =>
      rw [hw] at h
      simp [bind, Except.bind] at h
    | ok len =>
      rw [hw] at h
      simp only [bind, Except.bind] at h ⊢
      split at h
      · exact Except.noConfusion h
      · next hg =>
        rw [if_neg hg]
        cases hb : readBytesAt data (p + 32) len with
        | error err =>
          rw [hb] at h
          exact Except.noConfusion h
        | ok bs2 =>
          rw [hb] at h
          have hbs : bs2 = bs := AbiValue.bytes.inj (Except.ok.inj h)
          rw [hbs]

/-- C8 witness: decoding the dynamic-bytes segment holding the UTF-8
bytes of "hi" as a string yields the characters back. -/
theorem claim8_witness :
    decAt 1024 .stringT (word32 2 ++ padRight [104, 105]) 0 = .ok (.str ['h', 'i']) := by
  have hb : decAt 1024 .bytesT (word32 2 ++ padRight [104, 105]) 0
      = .ok (.bytes [104, 105]) := by
    rw [decAt_bytes_eval]
    rfl
  have hd : utf8Decode [104, 105] = some ['h', 'i'] := by
    have h2 := utf8Decode_encode ['h', 'i']
    rwa [show utf8Encode ['h', 'i'] = [104, 105] from rfl] at h2
  rw [(claim8_string_coder).2 1024 (word32 2 ++ padRight [104, 105]) 0 [104, 105] hb, hd]

/-- C4 (amended): `encode` fails with `ArgumentCountMismatch` whenever
`values.length != types.length`, and with equal lengths it proceeds to
encode the values as the components of a synthetic top-level tuple over
the types; that nested encoding can itself fail with
`ArgumentCountMismatch` when a fixed-size array or nested tuple value
has the wrong number of elements, so the length mismatch is sufficient
but not necessary for that error. -/
theorem claim4_amended (ts : List AbiType) (vs : List AbiValue) :
    (vs.length ≠ ts.length → abiEncode ts vs = .error .ArgumentCountMismatch)
    ∧ (vs.length = ts.length → abiEncode ts vs = encAt (.tupleT ts) (.tup vs)) := by
  constructor
  · intro h
    unfold abiEncode
    rw [if_pos h]
  · intro h
    unfold abiEncode
    rw [if_neg (by omega)]

/-- C4 witness: with no types, one value is a count mismatch. -/
theorem claim4_witness :
    abiEncode [] [AbiValue.int 0] = .error .ArgumentCountMismatch :=
  (claim4_amended [] [.int 0]).1 (by simp)

/-- C4 counterexample: equal top-level lengths (1 = 1), yet `encode`
fails with `ArgumentCountMismatch` because the fixed-size array value
`uint8[2]` received three elements — refuting the claimed "only if". -/
theorem claim4_counterexample :
    abiEncode [.arrayT (some 2) (.uintT 1)] [.list [.int 1, .int 2, .int 3]]
      = .error .ArgumentCountMismatch
    ∧ [AbiValue.list [.int 1, .int 2, .int 3]].length
      = [AbiType.arrayT (some 2) (.uintT 1)].length := by
  constructor
  · unfold abiEncode
    rw [if_neg (by simp)]
    rw [encAt_tuple]
    have h1 : encAt (.arrayT (some 2) (.uintT 1)) (.list [.int 1, .int 2, .int 3])
        = .error .ArgumentCountMismatch := by
      rw [encAt_array_some]
      rw [if_neg (by simp)]
    rw [show ([AbiType.arrayT (some 2) (.uintT 1)].map fun t => (t.isDynamic, encAt t))
        = [(false, encAt (.arrayT (some 2) (.uintT 1)))] from rfl]
    unfold encList
    dsimp only
    rw [h1]
    rfl
  · rfl

/-- C10: the inflation bound `decode` uses is module-level mutable
state shared by every `AbiCoder` instance: it starts at 1024, after
`_setDefaultMaxInflation(v)` every subsequent decode uses bound `v`,
and two calls with identical arguments can disagree under different
states, so decode behaviour is not a function of the call's arguments
alone. -/
theorem claim10_global_inflation_state :
    initGlobals.defaultMaxInflation = 1024
    ∧ (∀ (g : CoderGlobals) (v : Nat) (ts : List AbiType) (data : List Nat),
        decodeWithGlobals (setDefaultMaxInflation v g) ts data = abiDecode v ts data)
    ∧ (∃ (g1 g2 : CoderGlobals) (ts : List AbiType) (data : List Nat),
        decodeWithGlobals g1 ts data ≠ decodeWithGlobals g2 ts data) := by
  refine ⟨rfl, fun g v ts data => rfl, ?_⟩
  refine ⟨⟨1024⟩, ⟨0⟩, [.bytesT], word32 32 ++ word32 1 ++ word32 0, ?_⟩
  have hb1 : decAt 1024 .bytesT (word32 32 ++ word32 1 ++ word32 0) (0 + 32)
      = .ok (.bytes [0]) := by
    rw [decAt_bytes_eval]
    rfl
  have hb2 : decAt 0 .bytesT (word32 32 ++ word32 1 ++ word32 0) (0 + 32)
      = .error .InflationGuardTripped := by
    rw [decAt_bytes_eval]
    rfl
  have e1 : decodeWithGlobals (⟨1024⟩ : CoderGlobals) [.bytesT]
      (word32 32 ++ word32 1 ++ word32 0) = .ok [.bytes [0]] := by
    show abiDecode 1024 [.bytesT] (word32 32 ++ word32 1 ++ word32 0) = _
    unfold abiDecode
    rw [decAt_tuple]
    rw [show ([AbiType.bytesT].map (mkComp 1024)) = [mkComp 1024 .bytesT] from rfl]
    unfold decodeComps
    rw [show (mkComp 1024 AbiType.bytesT).dyn = true from rfl, if_pos rfl]
    simp only [bind, Except.bind]
    rw [show readWordAt (word32 32 ++ word32 1 ++ word32 0) 0 = .ok 32 from rfl]
    dsimp only
    rw [show (mkComp 1024 AbiType.bytesT).dec (word32 32 ++ word32 1 ++ word32 0) (0 + 32)
        = decAt 1024 .bytesT (word32 32 ++ word32 1 ++ word32 0) (0 + 32) from rfl]
    rw [hb1]
    rfl
  have e2 : decodeWithGlobals (⟨0⟩ : CoderGlobals) [.bytesT]
      (word32 32 ++ word32 1 ++ word32 0) = .error .InflationGuardTripped := by
    show abiDecode 0 [.bytesT] (word32 32 ++ word32 1 ++ word32 0) = _
    unfold abiDecode
    rw [decAt_tuple]
    rw [show ([AbiType.bytesT].map (mkComp 0)) = [mkComp 0 .bytesT] from rfl]
    unfold decodeComps
    rw [show (mkComp 0 AbiType.bytesT).dyn = true from rfl, if_pos rfl]
    simp only [bind, Except.bind]
    rw [show readWordAt (word32 32 ++ word32 1 ++ word32 0) 0 = .ok 32 from rfl]
    dsimp only
    rw [show (mkComp 0 AbiType.bytesT).dec (word32 32 ++ word32 1 ++ word32 0) (0 + 32)
        = decAt 0 .bytesT (word32 32 ++ word32 1 ++ word32 0) (0 + 32) from rfl]
    rw [hb2]
    rfl
  rw [e1, e2]
  simp

/-! ### The type-string grammar

Modelled from the spec: `ParamType.from`, which turns a canonical type
string into a descriptor tree, is not part of the repository snapshot.
Per spec section 4.6 the grammar is a base type (dispatched exactly as
`AbiCoder.#getCoder` does, via `getCoderLeaf`), an array suffix `[]` or
`[N]` appended to any type, or a parenthesized comma-separated tuple. -/

/-- Split a character list at top-level commas (`d` is the open-paren
depth, `acc` the current chunk reversed). -/
def splitTopComma : List Char → Nat → List Char → List (List Char)
  | [], _, acc => [acc.reverse]
  | c :: cs, d, acc =>
    if c = ',' ∧ d = 0 then acc.reverse :: splitTopComma cs 0 []
    else splitTopComma cs (if c = '(' then d + 1 else if c = ')' then d - 1 else d) (c :: acc)

theorem splitTopComma_length : ∀ (cs : List Char) (d : Nat) (acc : List Char),
    ∀ p ∈ splitTopComma cs d acc, p.length ≤ cs.length + acc.length := by
  intro cs
  induction cs with
  | nil =>
    intro d acc p hp
    have hpe : p = acc.reverse := by simpa [splitTopComma] using hp
    subst hpe
    simp
  | cons c cs ih =>
    intro d acc p hp
    by_cases hc : c = ',' ∧ d = 0
    · rw [splitTopComma, if_pos hc] at hp
      rcases List.mem_cons.mp hp with hp | hp
      · simp [hp]
      · have := ih 0 [] p hp
        simp at this
        simp
        omega
    · rw [splitTopComma, if_neg hc] at hp
      have := ih _ (c :: acc) p hp
      simp at this ⊢
      omega

/-- Parse one canonical type string into a descriptor. -/
def parseType (s : List Char) : Except Err AbiType :=
  if hsuf : s.reverse.headI = ']' ∧ s ≠ [] then
    match hrest : (s.reverse.tail).dropWhile (fun c => c ≠ '[') with
    | [] => .error .InvalidType
    | _ :: baseRev =>
      if isDigits ((s.reverse.tail).takeWhile (fun c => c ≠ '[')).reverse = false then
        .error .InvalidType
      else
        match parseType baseRev.reverse with
        | .error e => .error e
        | .ok base =>
          if (s.reverse.tail).takeWhile (fun c => c ≠ '[') = [] then .ok (.arrayT none base)
          else .ok (.arrayT
            (some (digitsVal ((s.reverse.tail).takeWhile (fun c => c ≠ '[')).reverse)) base)
  else if hpar : s.headI = '(' ∧ s.reverse.headI = ')' ∧ 2 ≤ s.length then
    match (splitTopComma ((s.drop 1).dropLast) 0 []).attach.mapM
        (fun x => parseType x.1) with
    | .error e => .error e
    | .ok ts => .ok (.tupleT ts)
  else getCoderLeaf s
termination_by s.length
decreasing_by
  · have h1 : ((s.reverse.tail).takeWhile (fun c => c ≠ '[')).length
        + ((s.reverse.tail).dropWhile (fun c => c ≠ '[')).length
        = s.reverse.tail.length := by
      rw [← List.length_append, List.takeWhile_append_dropWhile]
    rw [hrest] at h1
    simp only [List.length_cons, List.length_tail, List.length_reverse] at h1
    simp only [List.length_reverse]
    cases s with
    | nil => simp at hsuf
    | cons a as =>
      simp at h1 ⊢
      omega
  · have := splitTopComma_length ((s.drop 1).dropLast) 0 [] x.1 x.2
    simp only [List.length_nil, Nat.add_zero, List.length_dropLast, List.length_drop] at this
    have h2 := hpar.2.2
    omega


/-- Successful `mapM` over `Except`: every output element is the image
of some input element. -/
theorem mapM_ok_mem {α β : Type} (f : α → Except Err β) :
    ∀ (xs : List α) (ys : List β), xs.mapM f = .ok ys →
      ∀ y ∈ ys, ∃ x ∈ xs, f x = .ok y := by
  intro xs
  induction xs with
  | nil =>
    intro ys h y hy
    rw [List.mapM_nil] at h
    cases h
    simp at hy
  | cons x xs ih =>
    intro ys h y hy
    rw [List.mapM_cons] at h
    cases hfx : f x with
    | error e =>
      rw [hfx] at h
      simp only [bind, Except.bind] at h
      exact Except.noConfusion h
    | ok b =>
      rw [hfx] at h
      cases hrest : xs.mapM f with
      | error e =>
        rw [hrest] at h
        simp only [bind, Except.bind] at h
        exact Except.noConfusion h
      | ok bs =>
        rw [hrest] at h
        simp only [bind, Except.bind, pure, Except.pure, Except.ok.injEq] at h
        subst h
        rcases List.mem_cons.mp hy with hy | hy
        · exact ⟨x, List.mem_cons_self x xs, hy ▸ hfx⟩
        · obtain ⟨x', hx', hfx'⟩ := ih bs hrest y hy
          exact ⟨x', List.mem_cons_of_mem x hx', hfx'⟩

/-- Successful `mapM` over `Except` preserves length. -/
theorem mapM_ok_length {α β : Type} (f : α → Except Err β) :
    ∀ (xs : List α) (ys : List β), xs.mapM f = .ok ys → ys.length = xs.length := by
  intro xs
  induction xs with
  | nil =>
    intro ys h
    rw [List.mapM_nil] at h
    cases h
    rfl
  | cons x xs ih =>
    intro ys h
    rw [List.mapM_cons] at h
    cases hfx : f x with
    | error e =>
      rw [hfx] at h
      simp only [bind, Except.bind] at h
      exact Except.noConfusion h
    | ok b =>
      rw [hfx] at h
      cases hrest : xs.mapM f with
      | error e =>
        rw [hrest] at h
        simp only [bind, Except.bind] at h
        exact Except.noConfusion h
      | ok bs =>
        rw [hrest] at h
        simp only [bind, Except.bind, pure, Except.pure, Except.ok.injEq] at h
        subst h
        simp [ih bs hrest]

/-- Every descriptor the leaf dispatcher produces is well-formed. -/
theorem getCoderLeaf_wf (s : List Char) (t : AbiType)
    (h : getCoderLeaf s = .ok t) : t.wf = true := by
  unfold getCoderLeaf at h
  by_cases h1 : s = ['a', 'd', 'd', 'r', 'e', 's', 's']
  · rw [if_pos h1] at h
    cases h
    rfl
  rw [if_neg h1] at h
  by_cases h2 : s = ['b', 'o', 'o', 'l']
  · rw [if_pos h2] at h
    cases h
    rfl
  rw [if_neg h2] at h
  by_cases h3 : s = ['s', 't', 'r', 'i', 'n', 'g']
  · rw [if_pos h3] at h
    cases h
    rfl
  rw [if_neg h3] at h
  by_cases h4 : s = ['b', 'y', 't', 'e', 's']
  · rw [if_pos h4] at h
    cases h
    rfl
  rw [if_neg h4] at h
  by_cases h5 : s = []
  · rw [if_pos h5] at h
    exact Except.noConfusion h
  rw [if_neg h5] at h
  cases hm : matchNum s with
  | some p =>
    obtain ⟨signed, ds⟩ := p
    rw [hm] at h
    dsimp only at h
    by_cases hc : (if ds = [] then 256 else digitsVal ds) ≠ 0
        ∧ (if ds = [] then 256 else digitsVal ds) ≤ 256
        ∧ (if ds = [] then 256 else digitsVal ds) % 8 = 0
    · rw [if_pos hc] at h
      cases h
      obtain ⟨hc1, hc2, hc3⟩ := hc
      cases signed
      · rw [if_neg (by decide : ¬(false = true))]
        simp only [AbiType.wf, Bool.and_eq_true, decide_eq_true_eq]
        omega
      · rw [if_pos (rfl : true = true)]
        simp only [AbiType.wf, Bool.and_eq_true, decide_eq_true_eq]
        omega
    · rw [if_neg hc] at h
      exact Except.noConfusion h
  | none =>
    rw [hm] at h
    dsimp only at h
    cases hb : matchBytesN s with
    | some ds =>
      rw [hb] at h
      dsimp only at h
      by_cases hc : digitsVal ds ≠ 0 ∧ digitsVal ds ≤ 32
      · rw [if_pos hc] at h
        cases h
        simp only [AbiType.wf, Bool.and_eq_true, decide_eq_true_eq]
        omega
      · rw [if_neg hc] at h
        exact Except.noConfusion h
    | none =>
      rw [hb] at h
      exact Except.noConfusion h

/-- Every descriptor the type-string parser produces is well-formed. -/
theorem parseType_wf : ∀ (N : Nat) (s : List Char) (t : AbiType), s.length = N →
    parseType s = .ok t → t.wf = true := by
  intro N
  induction N using Nat.strong_induction_on with
  | _ N ih =>
    intro s t hN h
    rw [parseType] at h
    split at h
    · rename_i hsuf
      split at h
      · exact Except.noConfusion h
      · rename_i hd baseRev hrest
        split at h
        · exact Except.noConfusion h
        · split at h
          · exact Except.noConfusion h
          · rename_i base hbase
            have h1 : ((s.reverse.tail).takeWhile (fun c => c ≠ '[')).length
                + ((s.reverse.tail).dropWhile (fun c => c ≠ '[')).length
                = s.reverse.tail.length := by
              rw [← List.length_append, List.takeWhile_append_dropWhile]
            rw [hrest] at h1
            have hlt : (baseRev.reverse).length < s.length := by
              simp only [List.length_cons, List.length_tail, List.length_reverse] at h1 ⊢
              cases s with
              | nil => exact absurd rfl hsuf.2
              | cons a as =>
                simp at h1 ⊢
                omega
            have hbw := ih (baseRev.reverse).length (hN ▸ hlt) baseRev.reverse base rfl hbase
            split at h
            · cases h
              simpa only [AbiType.wf] using hbw
            · cases h
              simpa only [AbiType.wf] using hbw
    · rename_i hsuf
      split at h
      · rename_i hpar
        split at h
        · exact Except.noConfusion h
        · rename_i ts0 hmap
          cases h
          simp only [AbiType.wf]
          rw [allWf_eq_true]
          intro u hu
          obtain ⟨x, hx, hpx⟩ := mapM_ok_mem _ _ _ hmap u hu
          have hxin := x.2
          have hlen := splitTopComma_length ((s.drop 1).dropLast) 0 [] x.1 hxin
          have hlt : x.1.length < s.length := by
            simp only [List.length_nil, Nat.add_zero, List.length_dropLast,
              List.length_drop] at hlen
            have h2 := hpar.2.2
            omega
          exact ih x.1.length (hN ▸ hlt) x.1 u rfl hpx
      · exact getCoderLeaf_wf s t h

/-- Parse a list of type strings into descriptors
(`types.map((type) => this.#getCoder(ParamType.from(type)))`). -/
def parseTypes (ss : List (List Char)) : Except Err (List AbiType) := ss.mapM parseType

/-- `AbiCoder.encode` over type strings: check the value count, parse
the types, then encode as the synthetic top-level tuple. -/
def abiEncodeS (ss : List (List Char)) (vs : List AbiValue) : Except Err (List Nat) :=
  if vs.length ≠ ss.length then .error .ArgumentCountMismatch
  else match parseTypes ss with
    | .error e => .error e
    | .ok ts => abiEncode ts vs

/-- `AbiCoder.decode` over type strings with inflation bound `mi`. -/
def abiDecodeS (mi : Nat) (ss : List (List Char)) (data : List Nat) :
    Except Err (List AbiValue) :=
  match parseTypes ss with
  | .error e => .error e
  | .ok ts => abiDecode mi ts data

/-- `AbiCoder.getDefaultValue` over type strings. -/
def abiDefaultS (ss : List (List Char)) : Except Err (List AbiValue) :=
  match parseTypes ss with
  | .error e => .error e
  | .ok ts => .ok (abiDefault ts)

theorem parseType_uint256 : parseType ['u', 'i', 'n', 't', '2', '5', '6']
    = .ok (.uintT 32) := by
  rw [parseType]
  rw [dif_neg (by decide), dif_neg (by decide)]
  rfl

theorem parseType_bool : parseType ['b', 'o', 'o', 'l'] = .ok .boolT := by
  rw [parseType]
  rw [dif_neg (by decide), dif_neg (by decide)]
  rfl

theorem parseType_bytes3 : parseType ['b', 'y', 't', 'e', 's', '3']
    = .ok (.fixedBytesT 3) := by
  rw [parseType]
  rw [dif_neg (by decide), dif_neg (by decide)]
  rfl

theorem parseTypes_pair : parseTypes [['u', 'i', 'n', 't', '2', '5', '6'], ['b', 'o', 'o', 'l']]
    = .ok [.uintT 32, .boolT] := by
  unfold parseTypes
  rw [List.mapM_cons, parseType_uint256, List.mapM_cons, parseType_bool, List.mapM_nil]
  rfl

theorem parseTypes_triple : parseTypes
      [['u', 'i', 'n', 't', '2', '5', '6'], ['b', 'o', 'o', 'l'], ['b', 'y', 't', 'e', 's', '3']]
    = .ok [.uintT 32, .boolT, .fixedBytesT 3] := by
  unfold parseTypes
  rw [List.mapM_cons, parseType_uint256, List.mapM_cons, parseType_bool,
    List.mapM_cons, parseType_bytes3, List.mapM_nil]
  rfl

/-- C1: for every list of supported type strings and every list of
values the encoder accepts (so every value is in range for its type),
decoding the encoder's output with the default inflation bound yields
the original values: `decode(types, encode(types, values)) = values`. -/
theorem claim1_encode_decode_roundtrip (ss : List (List Char)) (vs : List AbiValue)
    (data : List Nat) (henc : abiEncodeS ss vs = .ok data)
    (hsz : data.length < 2 ^ 256) :
    abiDecodeS 1024 ss data = .ok vs := by
  unfold abiEncodeS at henc
  split at henc
  · exact Except.noConfusion henc
  · cases hts : parseTypes ss with
    | error e =>
      rw [hts] at henc
      exact Except.noConfusion henc
    | ok ts =>
      rw [hts] at henc
      unfold abiDecodeS
      rw [hts]
      have hwf : ∀ t ∈ ts, t.wf = true := by
        intro t ht
        obtain ⟨x, hx, hpx⟩ := mapM_ok_mem parseType ss ts hts t ht
        exact parseType_wf x.length x t rfl hpx
      exact abi_roundtrip 1024 (by omega) ts vs data hwf henc hsz

/-- C1 witness: `["uint256", "bool"]` with values `[5, true]`
round-trips through the two-word encoding. -/
theorem claim1_witness :
    abiEncodeS [['u', 'i', 'n', 't', '2', '5', '6'], ['b', 'o', 'o', 'l']]
      [.int 5, .boolV true] = .ok (word32 5 ++ word32 1)
    ∧ abiDecodeS 1024 [['u', 'i', 'n', 't', '2', '5', '6'], ['b', 'o', 'o', 'l']]
      (word32 5 ++ word32 1) = .ok [.int 5, .boolV true] := by
  have h1 : encAt (.uintT 32) (.int 5) = .ok (word32 5) := by
    rw [encAt]
    dsimp only
    rw [numberEncode_unsigned_iff 32 (by omega) 5, if_pos (by decide)]
    rfl
  have h2 : encAt .boolT (.boolV true) = .ok (word32 1) := by
    rw [encAt]
    rfl
  have henc : abiEncodeS [['u', 'i', 'n', 't', '2', '5', '6'], ['b', 'o', 'o', 'l']]
      [.int 5, .boolV true] = .ok (word32 5 ++ word32 1) := by
    unfold abiEncodeS
    rw [if_neg (by decide), parseTypes_pair]
    show abiEncode [.uintT 32, .boolT] [.int 5, .boolV true] = _
    unfold abiEncode
    rw [if_neg (by simp)]
    rw [encAt_tuple]
    rw [show ([AbiType.uintT 32, AbiType.boolT].map fun t => (t.isDynamic, encAt t))
        = [(false, encAt (.uintT 32)), (false, encAt .boolT)] from rfl]
    unfold encList
    dsimp only
    rw [h1]
    unfold encList
    dsimp only
    rw [h2]
    unfold encList
    simp only [bind, Except.bind]
    rfl
  exact ⟨henc, claim1_encode_decode_roundtrip _ _ _ henc
    (by rw [List.length_append, word32_length, word32_length]; norm_num)⟩

/-- C5: for every list of supported type strings, the default values
consume no input, encoding them succeeds, and decoding that encoding
yields the default values again. -/
theorem claim5_default_roundtrip (ss : List (List Char)) (ts : List AbiType)
    (hts : parseTypes ss = .ok ts) :
    abiDefaultS ss = .ok (abiDefault ts)
    ∧ (∃ data, abiEncodeS ss (abiDefault ts) = .ok data)
    ∧ (∀ data, abiEncodeS ss (abiDefault ts) = .ok data → data.length < 2 ^ 256 →
        abiDecodeS 1024 ss data = .ok (abiDefault ts)) := by
  have hwf : ∀ t ∈ ts, t.wf = true := by
    intro t ht
    obtain ⟨x, hx, hpx⟩ := mapM_ok_mem parseType ss ts hts t ht
    exact parseType_wf x.length x t rfl hpx
  have hcnt : (abiDefault ts).length = ss.length := by
    rw [show (abiDefault ts).length = ts.length by simp [abiDefault]]
    exact mapM_ok_length parseType ss ts hts
  refine ⟨?_, ?_, ?_⟩
  · unfold abiDefaultS
    rw [hts]
  · have hwft : (AbiType.tupleT ts).wf = true := by
      simp only [AbiType.wf]
      rw [allWf_eq_true]
      exact hwf
    obtain ⟨e, he⟩ := encAt_default (sizeOf (AbiType.tupleT ts)) (.tupleT ts) rfl hwft
    refine ⟨e, ?_⟩
    unfold abiEncodeS
    rw [if_neg (by simp [hcnt]), hts]
    show abiEncode ts (abiDefault ts) = _
    unfold abiEncode
    rw [if_neg (by simp [abiDefault])]
    rw [show AbiValue.tup (abiDefault ts) = defaultValue (.tupleT ts) by
      rw [defaultValue, List.attach_map_val ts defaultValue]
      rfl]
    exact he
  · intro data henc hsz
    unfold abiEncodeS at henc
    rw [if_neg (by simp [hcnt]), hts] at henc
    unfold abiDecodeS
    rw [hts]
    exact abi_roundtrip 1024 (by omega) ts (abiDefault ts) data hwf henc hsz

/-- C5 witness: the defaults of `["uint256", "bool", "bytes3"]` are
produced without reading a buffer and encode successfully. -/
theorem claim5_witness :
    abiDefaultS
        [['u', 'i', 'n', 't', '2', '5', '6'], ['b', 'o', 'o', 'l'], ['b', 'y', 't', 'e', 's', '3']]
      = .ok (abiDefault [.uintT 32, .boolT, .fixedBytesT 3])
    ∧ ∃ data, abiEncodeS
        [['u', 'i', 'n', 't', '2', '5', '6'], ['b', 'o', 'o', 'l'], ['b', 'y', 't', 'e', 's', '3']]
        (abiDefault [.uintT 32, .boolT, .fixedBytesT 3]) = .ok data :=
  ⟨(claim5_default_roundtrip _ _ parseTypes_triple).1,
   (claim5_default_roundtrip _ _ parseTypes_triple).2.1⟩

end Abi
